import Mathlib

/-!
Verification development for the Engram cognitive memory engine.

Shallow embedding of the memory core of the repository:
* `embeddings.js` — `cosineSimilarity`, `addMemory`, `searchSemantic`,
  `searchSemanticBruteForce`, `searchFTS`, `searchHybrid`, `expandWithHops`,
  `getLinks`, `parseSince`, tag helpers;
* `consolidation.js` — `runConsolidation` with `stepDecay`, `stepPrune`,
  `stepMerge`, `stepBoost`;
* `foa.js` — `recall` (composite scoring and token-budget packing).

Modelling conventions, used consistently below:
* Timestamps are integers counting days (julian day numbers); SQL
  `julianday('now') - julianday(x)` differences become integer subtraction.
  `parseSince` produces a rational day bound (hours are 1/24 of a day; the
  calendar month of JavaScript `setMonth` is approximated by 30 days — no
  claim below depends on the numeric value of the bound).
* IEEE floating point arithmetic of the pure helper `cosineSimilarity` is
  idealised as real arithmetic.
* External numeric services — the encoder (`embed`), the approximate vector
  index (`vector_top_k`), the SQL scalar `vector_distance_cos`, the
  cross-encoder (`rerank` scores) and the float cosine used inside the
  consolidation merge scan — are oracle parameters: every theorem holds for
  all oracles, hence for the actual floating-point implementations.
* SQL row sets are lists in table order; `UPDATE` is a `List.map` guarded by
  the `WHERE` predicate; `SELECT ... LIMIT k` is `List.take k` after the
  filters; ordering comparators are stable (`List.insertionSort` with the
  strict key order, which is the stable sort), matching the
  stable JavaScript `Array.prototype.sort`.
-/

namespace Engram

/-- A row of the `memories` table (schema of `db.js`), restricted to the
columns the verified operations read or write.  `embedding` is the
`content_embedding` blob, decoded; `mtype` is the `type` column. -/
structure Memory where
  id : Nat
  mtype : String
  title : String
  content : String
  embedding : Option (List ℚ)
  importance : ℚ
  strength : ℚ
  access_count : Nat
  last_accessed_at : Option Int
  created_at : Int
  archived : Bool
deriving Repr, DecidableEq

/-- A row of `memory_links`: directed edge with a relation label. -/
structure Link where
  source_id : Nat
  target_id : Nat
  relation : String
  lstrength : ℚ
deriving Repr, DecidableEq

/-- The database state touched by the verified operations: the `memories`
table, the memory–tag join (tag rows are identified by their normalized
name, which is unique in the `tags` table), the link table, the distinct
tag names, and `system_meta.last_consolidation_at`. -/
structure Store where
  memories : List Memory
  memTags : List (Nat × String)
  tagNames : List String
  links : List Link
  lastConsolidationAt : Option Int
  nextId : Nat
deriving Repr, DecidableEq

/-- A search result row: a memory together with its `score` column. -/
structure ScoredMemory where
  mem : Memory
  score : ℚ
deriving Repr, DecidableEq

/-- `SELECT ... FROM memories WHERE id = ?` (first row in table order). -/
def findMem (s : Store) (i : Nat) : Option Memory :=
  s.memories.find? (fun m => m.id == i)

/-- The SQL sub-query used by both decay and prune of `consolidation.js`:
membership of the memory in the join of `memory_tags` with the tag named
literally `permanent`. -/
def isPermanent (s : Store) (i : Nat) : Bool :=
  s.memTags.any (fun p => p.1 == i && p.2 == "permanent")

/-! ## `cosineSimilarity` (embeddings.js, lines 130–149)

The JavaScript loop accumulates the dot product and both squared norms;
we model the accumulations by structural recursion (real addition is
associative and commutative, so the grouping is immaterial) and the
IEEE arithmetic by real arithmetic. -/

/-- Dot product accumulated over the common prefix of the two vectors
(the function is only reached when the lengths agree). -/
def dotList : List ℝ → List ℝ → ℝ
  | x :: xs, y :: ys => x * y + dotList xs ys
  | _, _ => 0

/-- Sum of squares of the entries (the `normA`/`normB` accumulator). -/
def sumSq : List ℝ → ℝ
  | x :: xs => x * x + sumSq xs
  | [] => 0

open Classical in
/-- `cosineSimilarity(a, b)`: throws on dimension mismatch, returns `0`
when the denominator `sqrt(normA) * sqrt(normB)` is zero, and otherwise
the dot product divided by the product of the L2 norms. -/
noncomputable def cosineSimilarity (a b : List ℝ) : Except String ℝ :=
  if a.length ≠ b.length then
    .error ("Vector dimension mismatch: " ++ toString a.length ++ " vs " ++ toString b.length)
  else
    let denominator := Real.sqrt (sumSq a) * Real.sqrt (sumSq b)
    if denominator = 0 then .ok 0 else .ok (dotList a b / denominator)

/-! ## `parseSince` (embeddings.js, lines 1912–1938)

The regex `^(\d+)(h|d|w|m)$/i` is decomposed into: a non-empty all-digit
prefix and a final unit letter.  The result is the current time minus the
parsed duration, expressed in days. -/

/-- Days per unit letter (case-insensitive): `h` → 1/24, `d` → 1, `w` → 7,
`m` → 30 (JavaScript subtracts a calendar month; a 30-day month stands in
for it, and no verified claim depends on the value). -/
def sinceUnitDays (c : Char) : Option ℚ :=
  if c == 'h' || c == 'H' then some (1/24)
  else if c == 'd' || c == 'D' then some 1
  else if c == 'w' || c == 'W' then some 7
  else if c == 'm' || c == 'M' then some 30
  else none

/-- `parseInt` on an all-digit string. -/
def digitsToNat (cs : List Char) : Nat :=
  cs.foldl (fun acc c => acc * 10 + (c.toNat - '0'.toNat)) 0

/-- The exception text of `parseSince`. -/
def sinceErrorMsg (since : String) : String :=
  "Invalid since format: " ++ since ++ ". Use: 1h, 6h, 1d, 7d, 30d, 1w, 1m"

/-- `parseSince(since)` relative to the current day `now`: matches
`^(\d+)(h|d|w|m)$` case-insensitively and returns `now` minus the duration,
else throws the `Invalid since format` error. -/
def parseSince (now : ℚ) (since : String) : Except String ℚ :=
  let cs := since.data
  match cs.getLast? with
  | none => .error (sinceErrorMsg since)
  | some last =>
    match sinceUnitDays last with
    | none => .error (sinceErrorMsg since)
    | some unit =>
      let digits := cs.dropLast
      if digits ≠ [] ∧ digits.all Char.isDigit then
        .ok (now - (digitsToNat digits : ℚ) * unit)
      else
        .error (sinceErrorMsg since)

/-! ## Search primitives (embeddings.js, lines 1306–1541)

`vecTopK` is the approximate vector index oracle (`vector_top_k`: row ids
with cosine distances), `vdc` the SQL scalar `vector_distance_cos`, `fts`
the FTS5 `MATCH` oracle (row ids with BM25 scores), and `rr` the
cross-encoder scoring oracle. -/

/-- Options shared by the search entry points. -/
structure SearchOptions where
  k : Nat := 10
  type? : Option String := none
  includeArchived : Bool := false
  since? : Option String := none
deriving Repr, DecidableEq

/-- The optional `AND m.type = ?` clause. -/
def matchesType (type? : Option String) (m : Memory) : Bool :=
  match type? with
  | some t => m.mtype == t
  | none => true

/-- The optional `AND m.created_at >= ?` clause against a parsed bound. -/
def sinceOk (bound? : Option ℚ) (m : Memory) : Bool :=
  match bound? with
  | some b => decide ((m.created_at : ℚ) ≥ b)
  | none => true

/-- `searchSemanticBruteForce`: full scan of memories with an embedding,
filtered by `archived`/`type` only, ordered by exact cosine distance
ascending, truncated to `k`.  The `since` option is not read. -/
def searchSemanticBruteForce (vdc : List ℚ → List ℚ → ℚ) (s : Store)
    (queryEmbedding : List ℚ) (opts : SearchOptions) : List ScoredMemory :=
  let rows := s.memories.filterMap (fun m =>
    match m.embedding with
    | some e =>
      if (opts.includeArchived || !m.archived) && matchesType opts.type? m then
        some (⟨m, vdc e queryEmbedding⟩ : ScoredMemory)
      else none
    | none => none)
  (rows.insertionSort (fun a b => a.score < b.score)).take opts.k

/-- The indexed path of `searchSemantic`: everything inside the `try`
block — the `since` bound is parsed while the SQL arguments are built, the
index is queried for `2·k` candidates, the join post-filters them and
`LIMIT k` truncates.  A missing vector index or a malformed `since` raises
inside the `try`. -/
def searchSemanticIndexed (vecIndexOk : Bool)
    (vecTopK : List ℚ → Nat → List (Nat × ℚ)) (s : Store) (now : ℚ)
    (queryEmbedding : List ℚ) (opts : SearchOptions) :
    Except String (List ScoredMemory) :=
  match (match opts.since? with
         | some str => Except.map some (parseSince now str)
         | none => Except.ok none) with
  | .error e => .error e
  | .ok bound? =>
    if !vecIndexOk then .error "no such table: memories_vec_idx"
    else
      let rows := (vecTopK queryEmbedding (opts.k * 2)).filterMap (fun p =>
        match findMem s p.1 with
        | some m =>
          if (opts.includeArchived || !m.archived) && matchesType opts.type? m
              && sinceOk bound? m then
            some (⟨m, p.2⟩ : ScoredMemory)
          else none
        | none => none)
      .ok (rows.take opts.k)

/-- `searchSemantic`: try the vector index, and on any error — a missing
index as well as a malformed `since` — fall back to the brute-force scan.
The `async` function itself always resolves (it never rejects), which the
`Except` result type makes visible: every branch is `.ok`. -/
def searchSemantic (vecIndexOk : Bool) (vecTopK : List ℚ → Nat → List (Nat × ℚ))
    (vdc : List ℚ → List ℚ → ℚ) (s : Store) (now : ℚ)
    (queryEmbedding : List ℚ) (opts : SearchOptions) :
    Except String (List ScoredMemory) :=
  match searchSemanticIndexed vecIndexOk vecTopK s now queryEmbedding opts with
  | .ok r => .ok r
  | .error _ => .ok (searchSemanticBruteForce vdc s queryEmbedding opts)

/-- `searchFTS`: FTS5 `MATCH` joined back to `memories`, never including
archived rows, filtered by `type` and `since`, ordered by BM25 ascending,
truncated to `k`.  A malformed `since` raises out of the function. -/
def searchFTS (fts : String → List (Nat × ℚ)) (s : Store) (now : ℚ)
    (query : String) (opts : SearchOptions) : Except String (List ScoredMemory) :=
  match (match opts.since? with
         | some str => Except.map some (parseSince now str)
         | none => Except.ok none) with
  | .error e => .error e
  | .ok bound? =>
    let rows := (fts query).filterMap (fun p =>
      match s.memories.find? (fun m => m.id == p.1) with
      | some m =>
        if !m.archived && matchesType opts.type? m && sinceOk bound? m then
          some (⟨m, p.2⟩ : ScoredMemory)
        else none
      | none => none)
    .ok ((rows.insertionSort (fun a b => a.score < b.score)).take opts.k)

/-! ## Hybrid search: RRF fusion, rerank, hops (embeddings.js, 1434–1541) -/

/-- `qualityBoost = 1 + 0.1·(importance − 0.5) + 0.05·(strength − 0.5)`. -/
def qualityBoost (m : Memory) : ℚ :=
  1 + (m.importance - 1/2) * (1/10) + (m.strength - 1/2) * (1/20)

/-- One RRF contribution: `1 / (rrf_k + rank + 1)` times the quality
boost, rank 0-indexed. -/
def rrfContribution (rrf_k : ℚ) (rank : Nat) (m : Memory) : ℚ :=
  (1 / (rrf_k + (rank : ℚ) + 1)) * qualityBoost m

/-- JavaScript `Map.set`: overwrite the entry at an existing key in place,
otherwise append (insertion order is preserved). -/
def mapSet (acc : List (Memory × ℚ)) (m : Memory) (v : ℚ) : List (Memory × ℚ) :=
  if acc.any (fun p => p.1.id == m.id) then
    acc.map (fun p => if p.1.id == m.id then (m, v) else p)
  else acc ++ [(m, v)]

/-- The `existing.score += rrfScore * qualityBoost` update of the FTS
pass: only the score of the existing entry changes. -/
def mapAdd (acc : List (Memory × ℚ)) (i : Nat) (v : ℚ) : List (Memory × ℚ) :=
  acc.map (fun p => if p.1.id == i then (p.1, p.2 + v) else p)

/-- The fusion `Map` of `searchHybrid`: a semantic pass of `Map.set`s,
then an FTS pass that adds to existing entries and appends the rest. -/
def rrfFuse (rrf_k : ℚ) (sem fts : List ScoredMemory) : List (Memory × ℚ) :=
  let afterSem := sem.enum.foldl
    (fun acc p => mapSet acc p.2.mem (rrfContribution rrf_k p.1 p.2.mem)) []
  fts.enum.foldl
    (fun acc p =>
      if acc.any (fun q => q.1.id == p.2.mem.id) then
        mapAdd acc p.2.mem.id (rrfContribution rrf_k p.1 p.2.mem)
      else acc ++ [(p.2.mem, rrfContribution rrf_k p.1 p.2.mem)])
    afterSem

/-- `[...combined.values()].sort((a, b) => b.score - a.score)`: stable sort
by fused score descending. -/
def hybridSortFused (rrf_k : ℚ) (sem fts : List ScoredMemory) : List (Memory × ℚ) :=
  (rrfFuse rrf_k sem fts).insertionSort (fun a b => b.2 < a.2)

/-- `rerank(query, documents, {topK})` (embeddings.js, lines 279–316):
score every document with the cross-encoder oracle `rr`, stable-sort by
score descending, and truncate to `topK` when it is positive. -/
def rerankModel (rr : String → String → ℚ) (query : String)
    (documents : List String) (topK : Nat) : List (Nat × ℚ) :=
  let results := documents.enum.map (fun p => (p.1, rr query p.2))
  let sorted := results.insertionSort (fun a b => b.2 < a.2)
  if topK > 0 then sorted.take topK else sorted

/-- One row of `getLinks`. -/
structure LinkRow where
  id : Nat
  relation : String
  direction : String
deriving Repr, DecidableEq

/-- `getLinks` (embeddings.js, lines 1661–1679): both directions, the
linked memory joined and required non-archived. -/
def getLinks (s : Store) (memoryId : Nat) : List LinkRow :=
  s.links.filterMap (fun l =>
    if l.source_id == memoryId || l.target_id == memoryId then
      let linkedId := if l.source_id == memoryId then l.target_id else l.source_id
      match findMem s linkedId with
      | some m =>
        if !m.archived then
          some ⟨linkedId, l.relation,
                if l.source_id == memoryId then "outgoing" else "incoming"⟩
        else none
      | none => none
    else none)

/-- `getMemory` (embeddings.js, lines 1168–1219) restricted to the row
fields: `WHERE id = ? AND archived = 0`. -/
def getMemoryOp (s : Store) (i : Nat) : Option Memory :=
  s.memories.find? (fun m => m.id == i && !m.archived)

/-- The inner double loop of one hop of `expandWithHops`: walk the current
layer, collect unseen non-archived linked memories with sentinel score
`-1` while the combined size stays below `maxTotal`. -/
def expandLayer (s : Store) (maxTotal expandedLen : Nat) :
    List ScoredMemory → List Nat → List ScoredMemory → List Nat × List ScoredMemory
  | [], seen, nextLayer => (seen, nextLayer)
  | sm :: rest, seen, nextLayer =>
    let st := (getLinks s sm.mem.id).foldl
      (fun st lr =>
        if !st.1.contains lr.id && expandedLen + st.2.length < maxTotal then
          let seen2 := st.1 ++ [lr.id]
          match getMemoryOp s lr.id with
          | some linked =>
            if !linked.archived then (seen2, st.2 ++ [(⟨linked, -1⟩ : ScoredMemory)])
            else (seen2, st.2)
          | none => (seen2, st.2)
        else st)
      (seen, nextLayer)
    expandLayer s maxTotal expandedLen rest st.1 st.2

/-- The `for (hop = 0; hop < hops && expanded.length < maxTotal; hop++)`
loop of `expandWithHops`. -/
def hopLoop (s : Store) (maxTotal : Nat) :
    Nat → List Nat → List ScoredMemory → List ScoredMemory → List ScoredMemory
  | 0, _, expanded, _ => expanded
  | Nat.succ h, seen, expanded, currentLayer =>
    if expanded.length < maxTotal then
      let st := expandLayer s maxTotal expanded.length currentLayer seen []
      hopLoop s maxTotal h st.1 (expanded ++ st.2) st.2
    else expanded

/-- `expandWithHops` (embeddings.js, lines 1510–1541): breadth-first
expansion along the link graph, both directions, skipping already-included
ids and archived memories, appending results with sentinel score `-1`. -/
def expandWithHops (s : Store) (results : List ScoredMemory)
    (hops maxTotal : Nat) : List ScoredMemory :=
  hopLoop s maxTotal hops (results.map (fun r => r.mem.id)) results results

/-- The body of `searchHybrid` after both retrievals: fuse, sort, then
either rerank-and-return (the `useRerank` branch returns without reaching
the hops block) or take the top `k` and, when `hops > 0`, expand. -/
def searchHybridCore (rr : String → String → ℚ) (s : Store) (query : String)
    (semanticResults ftsResults : List ScoredMemory)
    (k : Nat) (rrf_k : ℚ) (useRerank : Bool) (hops : Nat) : List ScoredMemory :=
  let sorted := hybridSortFused rrf_k semanticResults ftsResults
  if useRerank && sorted.length > 0 then
    let rerankCandidates := sorted.take (max (k * 2) 10)
    let documents := rerankCandidates.map (fun p => p.1.title ++ "\n" ++ p.1.content)
    let reranked := rerankModel rr query documents k
    reranked.filterMap (fun r => (rerankCandidates.get? r.1).map
      (fun p => (⟨p.1, r.2⟩ : ScoredMemory)))
  else
    let finalResults := (sorted.take k).map (fun p => (⟨p.1, p.2⟩ : ScoredMemory))
    if hops > 0 && finalResults.length > 0 then
      expandWithHops s finalResults hops k
    else finalResults

/-- `searchHybrid` (embeddings.js, lines 1434–1500): retrieve
`max(3·k, 20)` candidates from each source (a semantic failure would
reject the call, while FTS failures are swallowed by `.catch(() => [])`),
then fuse/rerank/expand. -/
def searchHybrid (vecIndexOk : Bool) (vecTopK : List ℚ → Nat → List (Nat × ℚ))
    (vdc : List ℚ → List ℚ → ℚ) (fts : String → List (Nat × ℚ))
    (rr : String → String → ℚ) (s : Store) (now : ℚ) (query : String)
    (queryEmbedding : List ℚ) (k : Nat) (type? : Option String) (rrf_k : ℚ)
    (useRerank : Bool) (since? : Option String) (hops : Nat) :
    Except String (List ScoredMemory) :=
  let fetchK := max (k * 3) 20
  match searchSemantic vecIndexOk vecTopK vdc s now queryEmbedding
      { k := fetchK, type? := type?, since? := since? } with
  | .error e => .error e
  | .ok semanticResults =>
    let ftsResults :=
      (searchFTS fts s now query
        { k := fetchK, type? := type?, since? := since? }).toOption.getD []
    .ok (searchHybridCore rr s query semanticResults ftsResults k rrf_k useRerank hops)

/-! ## Write path: `addMemory` (embeddings.js, lines 980–1165) -/

/-- `add` status values. -/
inductive AddStatus
  | created
  | duplicate
  | merged
deriving Repr, DecidableEq

/-- The `{id, status}` result of `addMemory`. -/
structure AddResult where
  id : Nat
  status : AddStatus
deriving Repr, DecidableEq

/-- The `MemoryInput` of `addMemory` with its defaults. -/
structure AddInput where
  mtype : String
  title : String
  content : String
  importance : ℚ := 1/2
  tags : List String := []
  links : List (Nat × String) := []
  autoLink : Bool := true
  autoLinkThreshold : ℚ := 7/10
  mergeThreshold : ℚ := 92/100
deriving Repr, DecidableEq

/-- JavaScript `hay.includes(needle)`: substring test. -/
def strIncludes (hay needle : String) : Bool :=
  decide (needle.data <:+: hay.data)

/-- `applyTags` (embeddings.js, lines 1093–1112): upsert the normalized
names into `tags` (`INSERT OR IGNORE`), then one ignore-on-conflict join
row per tag. -/
def applyTags (s : Store) (memoryId : Nat) (tags : List String) : Store :=
  let tagNames := tags.foldl (fun acc t =>
    let n := t.toLower.trim
    if acc.contains n then acc else acc ++ [n]) s.tagNames
  let memTags := tags.foldl (fun acc t =>
    let n := t.toLower.trim
    if acc.contains (memoryId, n) then acc else acc ++ [(memoryId, n)]) s.memTags
  { s with tagNames := tagNames, memTags := memTags }

/-- `INSERT OR REPLACE INTO memory_links` over the unique
`(source_id, target_id)` pair. -/
def linkReplace (s : Store) (src tgt : Nat) (relation : String) (strength : ℚ) : Store :=
  { s with links :=
      (s.links.filter (fun l => !(l.source_id == src && l.target_id == tgt)))
        ++ [⟨src, tgt, relation, strength⟩] }

/-- `INSERT OR IGNORE INTO memory_links` over the unique
`(source_id, target_id)` pair. -/
def linkIgnore (s : Store) (src tgt : Nat) (relation : String) (strength : ℚ) : Store :=
  if s.links.any (fun l => l.source_id == src && l.target_id == tgt) then s
  else { s with links := s.links ++ [⟨src, tgt, relation, strength⟩] }

/-- `autoLinkMemory` (embeddings.js, lines 1123–1160): probe
`maxLinks + 5` neighbours excluding self and archived rows; link up to
`maxLinks` of those with similarity at least the threshold, strength
rounded to two decimals; on a vector-index failure skip entirely. -/
def autoLinkMemory (vecIndexOk : Bool) (vecTopK : List ℚ → Nat → List (Nat × ℚ))
    (s : Store) (memoryId : Nat) (embedding : List ℚ) (threshold : ℚ)
    (maxLinks : Nat) : Store :=
  if !vecIndexOk then s
  else
    let rows := (vecTopK embedding (maxLinks + 5)).filterMap (fun p =>
      match findMem s p.1 with
      | some m =>
        if m.id != memoryId && !m.archived then some (⟨m, p.2⟩ : ScoredMemory) else none
      | none => none)
    let st := rows.foldl
      (fun st row =>
        let similarity := 1 - row.score
        if threshold ≤ similarity ∧ st.2 < maxLinks then
          (linkIgnore st.1 memoryId row.mem.id "related_to"
            (((round (similarity * 100) : ℤ) : ℚ) / 100), st.2 + 1)
        else st)
      (s, 0)
    st.1

/-- The merge-on-write loop over the kNN probe rows of `addMemory`
(lines 1022–1051): the first row whose `1 − distance` reaches the merge
threshold absorbs the new content (appended after `"\n\n---\n"` unless it
is already a substring), takes the longer title, is re-embedded, has its
access count bumped and strength multiplied by 1.1 clamped at 1, and gets
the incoming tags. -/
def mergeLoop (embedF : String → List ℚ) (s : Store) (now : Int)
    (input : AddInput) : List ScoredMemory → Option (Store × AddResult)
  | [] => none
  | row :: rest =>
    let similarity := 1 - row.score
    if input.mergeThreshold ≤ similarity then
      let existingId := row.mem.id
      let existingContent := row.mem.content
      let mergedContent :=
        if strIncludes existingContent input.content then existingContent
        else existingContent ++ "\n\n---\n" ++ input.content
      let mergedTitle :=
        if row.mem.title.length < input.title.length then input.title else row.mem.title
      let mergedEmbedding := embedF (mergedTitle ++ "\n" ++ mergedContent)
      let s1 := { s with memories := s.memories.map (fun m =>
        if m.id == existingId then
          { m with content := mergedContent, title := mergedTitle,
                   embedding := some mergedEmbedding,
                   access_count := m.access_count + 1,
                   strength := min (m.strength * (11/10)) 1,
                   last_accessed_at := some now }
        else m) }
      let s2 := if input.tags ≠ [] then applyTags s1 existingId input.tags else s1
      some (s2, ⟨existingId, .merged⟩)
    else mergeLoop embedF s now input rest

/-- The `UPDATE memories SET access_count = access_count + 1,
last_accessed_at = datetime('now') WHERE id = ?` of the exact-duplicate
path. -/
def bumpAccess (s : Store) (i : Nat) (now : Int) : Store :=
  { s with memories := s.memories.map (fun m =>
      if m.id == i then
        { m with access_count := m.access_count + 1, last_accessed_at := some now }
      else m) }

/-- The kNN probe of the merge-on-write check: the top-3 index rows joined
back to non-archived memories of the input's type. -/
def mergeProbeRows (vecTopK : List ℚ → Nat → List (Nat × ℚ)) (s : Store)
    (input : AddInput) (embedding : List ℚ) : List ScoredMemory :=
  (vecTopK embedding 3).filterMap (fun p =>
    match findMem s p.1 with
    | some m =>
      if !m.archived && m.mtype == input.mtype then
        some (⟨m, p.2⟩ : ScoredMemory)
      else none
    | none => none)

/-- The insert path of `addMemory`: new row, tags, explicit links,
auto-linking. -/
def insertNew (embedF : String → List ℚ) (vecIndexOk : Bool)
    (vecTopK : List ℚ → Nat → List (Nat × ℚ)) (s : Store) (now : Int)
    (input : AddInput) (embedding : List ℚ) : Store × AddResult :=
  let memoryId := s.nextId
  let newMem : Memory :=
    { id := memoryId, mtype := input.mtype, title := input.title,
      content := input.content, embedding := some embedding,
      importance := input.importance, strength := 1, access_count := 0,
      last_accessed_at := none, created_at := now, archived := false }
  let s1 := { s with memories := s.memories ++ [newMem], nextId := s.nextId + 1 }
  let s2 := if input.tags ≠ [] then applyTags s1 memoryId input.tags else s1
  let s3 := if input.links ≠ [] then
      input.links.foldl (fun st l => linkReplace st memoryId l.1 l.2 (1/2)) s2
    else s2
  let s4 := if input.autoLink then
      autoLinkMemory vecIndexOk vecTopK s3 memoryId embedding
        input.autoLinkThreshold 3
    else s3
  (s4, ⟨memoryId, .created⟩)

/-- `addMemory` (embeddings.js, lines 980–1085): exact-duplicate check on
`(type, title, archived = 0)` (bumping only the access counter and
timestamp), then embed, then merge-on-write over the top-3 same-type
neighbours (skipped when the vector index is unavailable), otherwise
insert followed by tags, explicit links, and auto-linking. -/
def addMemory (embedF : String → List ℚ) (vecIndexOk : Bool)
    (vecTopK : List ℚ → Nat → List (Nat × ℚ)) (s : Store) (now : Int)
    (input : AddInput) : Store × AddResult :=
  match s.memories.find?
      (fun m => m.mtype == input.mtype && m.title == input.title && !m.archived) with
  | some existing => (bumpAccess s existing.id now, ⟨existing.id, .duplicate⟩)
  | none =>
    let embedding := embedF (input.title ++ "\n" ++ input.content)
    match (if vecIndexOk then
        mergeLoop embedF s now input (mergeProbeRows vecTopK s input embedding)
      else none) with
    | some r => r
    | none => insertNew embedF vecIndexOk vecTopK s now input embedding

/-! ## Consolidation engine (consolidation.js, lines 51–466)

`simFn` is the float cosine oracle used by the brute-force merge scan;
`embedF` the encoder oracle used when merged content is re-embedded. -/

/-- `ConsolidationOptions` with the documented defaults. -/
structure ConsolidationOptions where
  decayRate : ℚ := 95/100
  pruneThreshold : ℚ := 5/100
  mergeThreshold : ℚ := 92/100
  boostFactor : ℚ := 11/10
  boostMinAccess : Nat := 3
  dryRun : Bool := false
deriving Repr, DecidableEq

/-- The counters of `ConsolidationResult`. -/
structure ConsolidationResult where
  decayed : Nat
  pruned : Nat
  merged : Nat
  boosted : Nat
deriving Repr, DecidableEq

/-- The decay exponent of `stepDecay`:
`MAX(0, julianday('now') - julianday(COALESCE(?, last_accessed_at, created_at)))`
with the last consolidation timestamp bound to `?`. -/
def decayDays (lastRunAt : Option Int) (now : Int) (m : Memory) : Nat :=
  (max 0 (now - ((lastRunAt <|> m.last_accessed_at).getD m.created_at))).toNat

/-- The `WHERE` clause of the decay `UPDATE`:
`archived = 0 AND strength > 0` and not joined to the `permanent` tag. -/
def decayHits (s : Store) (m : Memory) : Bool :=
  !m.archived && decide (0 < m.strength) && !isPermanent s m.id

/-- `stepDecay` (consolidation.js, lines 127–156): multiply the strength
of every matching row by `decayRate ^ days`; the dry run merely counts
(with its own `last_accessed_at IS NOT NULL` condition). -/
def stepDecay (s : Store) (decayRate : ℚ) (dryRun : Bool) (lastRunAt : Option Int)
    (now : Int) : Store × Nat :=
  if dryRun then
    (s, (s.memories.filter (fun m =>
      !m.archived && m.last_accessed_at.isSome && !isPermanent s m.id)).length)
  else
    ({ s with memories := s.memories.map (fun m =>
        if decayHits s m then
          { m with strength := m.strength * decayRate ^ decayDays lastRunAt now m }
        else m) },
     (s.memories.filter (fun m => decayHits s m)).length)

/-- The `WHERE` clause of the prune `UPDATE`:
`archived = 0 AND strength < ?` and not joined to the `permanent` tag. -/
def pruneHits (s : Store) (threshold : ℚ) (m : Memory) : Bool :=
  !m.archived && decide (m.strength < threshold) && !isPermanent s m.id

/-- `stepPrune` (consolidation.js, lines 166–187): archive every matching
row. -/
def stepPrune (s : Store) (threshold : ℚ) (dryRun : Bool) : Store × Nat :=
  let n := (s.memories.filter (fun m => pruneHits s threshold m)).length
  if dryRun then (s, n)
  else
    ({ s with memories := s.memories.map (fun m =>
        if pruneHits s threshold m then { m with archived := true } else m) }, n)

/-- The row snapshot taken by both merge-candidate finders. -/
structure MergeSnap where
  id : Nat
  mtype : String
  title : String
  content : String
  embedding : List ℚ
  importance : ℚ
  strength : ℚ
  accessCount : Nat
deriving Repr, DecidableEq

/-- A `MergeCandidate` of `consolidation.js`. -/
structure MergeCandidate where
  keep : MergeSnap
  remove : MergeSnap
  similarity : ℚ
deriving Repr, DecidableEq

/-- The snapshot query of both finders:
`SELECT ... FROM memories WHERE archived = 0 AND content_embedding IS NOT NULL ORDER BY id`. -/
def mergeRows (s : Store) : List MergeSnap :=
  (s.memories.filterMap (fun m =>
      match m.embedding with
      | some e =>
        if !m.archived then
          some (⟨m.id, m.mtype, m.title, m.content, e, m.importance, m.strength,
                 m.access_count⟩ : MergeSnap)
        else none
      | none => none)).insertionSort (fun a b => a.id < b.id)

/-- The keep/remove score `importance + 0.1 · access_count`. -/
def bfScore (m : MergeSnap) : ℚ :=
  m.importance + (m.accessCount : ℚ) * (1/10)

/-- The inner `j` loop of `_findMergeCandidatesBruteForce`: the removal
set is only consulted for `j`, matching the JavaScript loop. -/
def bfInner (simFn : List ℚ → List ℚ → ℚ) (threshold : ℚ) (mi : MergeSnap) :
    List MergeSnap → List Nat → List MergeCandidate → List Nat × List MergeCandidate
  | [], toRemove, dups => (toRemove, dups)
  | mj :: rest, toRemove, dups =>
    if toRemove.contains mj.id then bfInner simFn threshold mi rest toRemove dups
    else if mi.mtype ≠ mj.mtype then bfInner simFn threshold mi rest toRemove dups
    else
      let sim := simFn mi.embedding mj.embedding
      if threshold ≤ sim then
        if bfScore mj ≤ bfScore mi then
          bfInner simFn threshold mi rest (toRemove ++ [mj.id]) (dups ++ [⟨mi, mj, sim⟩])
        else
          bfInner simFn threshold mi rest (toRemove ++ [mi.id]) (dups ++ [⟨mj, mi, sim⟩])
      else bfInner simFn threshold mi rest toRemove dups

/-- The outer `i` loop of `_findMergeCandidatesBruteForce`. -/
def bfOuter (simFn : List ℚ → List ℚ → ℚ) (threshold : ℚ) :
    List MergeSnap → List Nat → List MergeCandidate → List MergeCandidate
  | [], _, dups => dups
  | mi :: rest, toRemove, dups =>
    if toRemove.contains mi.id then bfOuter simFn threshold rest toRemove dups
    else
      let st := bfInner simFn threshold mi rest toRemove dups
      bfOuter simFn threshold rest st.1 st.2

/-- `_findMergeCandidatesBruteForce` (consolidation.js, lines 338–390):
pairwise scan restricted to same-type, non-archived rows. -/
def findMergeCandidatesBruteForce (simFn : List ℚ → List ℚ → ℚ) (threshold : ℚ)
    (s : Store) : List MergeCandidate :=
  let rows := mergeRows s
  if rows.length < 2 then [] else bfOuter simFn threshold rows [] []

/-- The JavaScript `Map` built from the snapshot rows (later rows with the
same id overwrite in place). -/
def buildMemMap (rows : List MergeSnap) : List MergeSnap :=
  rows.foldl (fun acc r =>
    if acc.any (fun x => x.id == r.id) then
      acc.map (fun x => if x.id == r.id then r else x)
    else acc ++ [r]) []

/-- The neighbour query of `_findMergeCandidatesDiskANN`:
`vector_top_k` joined with `m.id != ? AND m.archived = 0 AND m.type = ?`. -/
def daNeighbors (vecTopK : List ℚ → Nat → List (Nat × ℚ)) (s : Store)
    (mi : MergeSnap) (neighborsK : Nat) : List (Nat × ℚ) :=
  (vecTopK mi.embedding neighborsK).filterMap (fun p =>
    match findMem s p.1 with
    | some m =>
      if m.id != mi.id && !m.archived && m.mtype == mi.mtype then some (p.1, p.2)
      else none
    | none => none)

/-- The neighbour loop of `_findMergeCandidatesDiskANN`; when the current
memory loses and is marked for removal the loop `break`s. -/
def daInner (threshold : ℚ) (memMap : List MergeSnap) (mi : MergeSnap) :
    List (Nat × ℚ) → List Nat → List MergeCandidate → List Nat × List MergeCandidate
  | [], toRemove, dups => (toRemove, dups)
  | (nid, dist) :: rest, toRemove, dups =>
    if toRemove.contains nid then daInner threshold memMap mi rest toRemove dups
    else
      let sim := 1 - dist
      if sim < threshold then daInner threshold memMap mi rest toRemove dups
      else
        match memMap.find? (fun x => x.id == nid) with
        | none => daInner threshold memMap mi rest toRemove dups
        | some other =>
          if bfScore other ≤ bfScore mi then
            daInner threshold memMap mi rest (toRemove ++ [nid]) (dups ++ [⟨mi, other, sim⟩])
          else
            (toRemove ++ [mi.id], dups ++ [⟨other, mi, sim⟩])

/-- The outer loop of `_findMergeCandidatesDiskANN` over the map entries. -/
def daOuter (vecTopK : List ℚ → Nat → List (Nat × ℚ)) (s : Store) (threshold : ℚ)
    (memMap : List MergeSnap) :
    List MergeSnap → List Nat → List MergeCandidate → List MergeCandidate
  | [], _, dups => dups
  | mi :: rest, toRemove, dups =>
    if toRemove.contains mi.id then daOuter vecTopK s threshold memMap rest toRemove dups
    else
      let st := daInner threshold memMap mi (daNeighbors vecTopK s mi 4) toRemove dups
      daOuter vecTopK s threshold memMap rest st.1 st.2

/-- `_findMergeCandidatesDiskANN` (consolidation.js, lines 265–330). -/
def findMergeCandidatesDiskANN (vecTopK : List ℚ → Nat → List (Nat × ℚ))
    (s : Store) (threshold : ℚ) : List MergeCandidate :=
  let rows := mergeRows s
  if rows.length < 2 then []
  else
    let memMap := buildMemMap rows
    daOuter vecTopK s threshold memMap memMap [] []

/-- One pass of `UPDATE OR IGNORE memory_links SET source_id = ? WHERE
source_id = ?` (or the `target_id` variant): rows are rewritten in table
order and a row whose rewrite would collide with another `(source, target)`
pair is left unchanged. -/
def updateLinksGo (isSource : Bool) (fromId toId : Nat) (done : List Link) :
    List Link → List Link
  | [] => done
  | l :: rest =>
    let hit := if isSource then l.source_id == fromId else l.target_id == fromId
    if hit then
      let l' := if isSource then { l with source_id := toId } else { l with target_id := toId }
      let conflict := (done ++ rest).any
        (fun x => x.source_id == l'.source_id && x.target_id == l'.target_id)
      if conflict then updateLinksGo isSource fromId toId (done ++ [l]) rest
      else updateLinksGo isSource fromId toId (done ++ [l']) rest
    else updateLinksGo isSource fromId toId (done ++ [l]) rest

/-- The per-row effect of the first merge `UPDATE` of `stepMerge`: the
kept row receives the merged content, embedding, importance, strength
and the removed row's access count. -/
def mergeUpdKeep (newContent : String) (newEmb : List ℚ) (newImp newStr : ℚ)
    (addAccess : Nat) (keepId : Nat) (m : Memory) : Memory :=
  if m.id == keepId then
    { m with content := newContent, embedding := some newEmb,
             importance := newImp, strength := newStr,
             access_count := m.access_count + addAccess }
  else m

/-- The per-row effect of the second merge `UPDATE`: the removed row is
archived. -/
def mergeUpdRemove (removeId : Nat) (m : Memory) : Memory :=
  if m.id == removeId then { m with archived := true } else m

/-- One merge execution of `stepMerge` (lines 214–247): concatenate the
removed snapshot's content under a `[Merged from: …]` header, take the max
importance and strength, add its access count, re-embed, archive the
removed row, rewrite links. -/
def executeMerge (embedF : String → List ℚ) (s : Store) (dup : MergeCandidate) : Store :=
  let mergedContent := dup.keep.content ++ "\n\n[Merged from: " ++ dup.remove.title
    ++ "]\n" ++ dup.remove.content
  let mergedImportance := max dup.keep.importance dup.remove.importance
  let mergedStrength := max dup.keep.strength dup.remove.strength
  let newEmbedding := embedF (dup.keep.title ++ "\n" ++ mergedContent)
  let s1 := { s with
    memories := s.memories.map (mergeUpdKeep mergedContent newEmbedding
      mergedImportance mergedStrength dup.remove.accessCount dup.keep.id) }
  let s2 := { s1 with memories := s1.memories.map (mergeUpdRemove dup.remove.id) }
  let links1 := updateLinksGo true dup.remove.id dup.keep.id [] s2.links
  let links2 := updateLinksGo false dup.remove.id dup.keep.id [] links1
  { s2 with links := links2 }

/-- `stepMerge` (consolidation.js, lines 201–250): find candidates via the
DiskANN scan, or via the brute-force scan when the vector index is
unavailable, then execute the merges in order (dry run only counts). -/
def stepMerge (embedF : String → List ℚ) (vecIndexOk : Bool)
    (vecTopK : List ℚ → Nat → List (Nat × ℚ)) (simFn : List ℚ → List ℚ → ℚ)
    (s : Store) (threshold : ℚ) (dryRun : Bool) : Store × Nat :=
  let duplicates :=
    if vecIndexOk then findMergeCandidatesDiskANN vecTopK s threshold
    else findMergeCandidatesBruteForce simFn threshold s
  if dryRun then (s, duplicates.length)
  else (duplicates.foldl (fun st dup => executeMerge embedF st dup) s, duplicates.length)

/-- The `WHERE` clause of the boost `UPDATE`:
`archived = 0 AND access_count >= ?`. -/
def boostHits (minAccess : Nat) (m : Memory) : Bool :=
  !m.archived && decide (minAccess ≤ m.access_count)

/-- `stepBoost` (consolidation.js, lines 401–419): multiply the strength
of every matching row by the factor, clamped at 1. -/
def stepBoost (s : Store) (factor : ℚ) (minAccess : Nat) (dryRun : Bool) : Store × Nat :=
  let n := (s.memories.filter (fun m => boostHits minAccess m)).length
  if dryRun then (s, n)
  else
    ({ s with memories := s.memories.map (fun m =>
        if boostHits minAccess m then { m with strength := min 1 (m.strength * factor) }
        else m) }, n)

/-- The boost step of `runConsolidation` behind its one-day cooldown
guard: `daysSinceLastConsolidation === null || daysSinceLastConsolidation
>= 1` (consolidation.js, lines 76–84). -/
def boostGate (s : Store) (opts : ConsolidationOptions) (now : Int)
    (mg1 : Store) : Store × Nat :=
  match s.lastConsolidationAt.map (fun t => now - t) with
  | none => stepBoost mg1 opts.boostFactor opts.boostMinAccess opts.dryRun
  | some ds =>
    if 1 ≤ ds then stepBoost mg1 opts.boostFactor opts.boostMinAccess opts.dryRun
    else (mg1, 0)

/-- `runConsolidation` (consolidation.js, lines 51–109): decay with the
stored `last_consolidation_at` as base, prune, merge, boost guarded by the
one-day cooldown, and — only when the run is not dry — write
`last_consolidation_at := now` at the end. -/
def runConsolidation (embedF : String → List ℚ) (vecIndexOk : Bool)
    (vecTopK : List ℚ → Nat → List (Nat × ℚ)) (simFn : List ℚ → List ℚ → ℚ)
    (s : Store) (opts : ConsolidationOptions) (now : Int) :
    Store × ConsolidationResult :=
  let d := stepDecay s opts.decayRate opts.dryRun s.lastConsolidationAt now
  let p := stepPrune d.1 opts.pruneThreshold opts.dryRun
  let mg := stepMerge embedF vecIndexOk vecTopK simFn p.1 opts.mergeThreshold opts.dryRun
  let b := boostGate s opts now mg.1
  let final := if !opts.dryRun then { b.1 with lastConsolidationAt := some now } else b.1
  (final, ⟨d.2, p.2, mg.2, b.2⟩)

/-- Invariant of a consolidated store: every non-archived, non-permanent
memory clears the prune threshold. -/
def strongEnough (threshold : ℚ) (s : Store) : Prop :=
  ∀ m ∈ s.memories, m.archived = false → isPermanent s m.id = false →
    threshold ≤ m.strength

/-- Invariant: every stored strength is non-negative. -/
def nonnegStrength (s : Store) : Prop :=
  ∀ m ∈ s.memories, 0 ≤ m.strength

/-- A merge snapshot is sound for a store when some non-archived row of
the store carries its id and strength. -/
def snapSound (s : Store) (x : MergeSnap) : Prop :=
  ∃ m ∈ s.memories, m.archived = false ∧ m.id = x.id ∧ m.strength = x.strength

/-! ## Focus of Attention (foa.js, lines 33–110) -/

/-- `estimateTokens`: `Math.ceil(text.length / 3.5)` — in integers,
`⌈2·len / 7⌉`. -/
def estimateTokens (text : String) : Nat :=
  (2 * text.length + 6) / 7

/-- The rendered string whose length is estimated:
`` `[${mem.type}] ${mem.title}\n${mem.content}` ``. -/
def renderMemory (m : Memory) : String :=
  "[" ++ m.mtype ++ "] " ++ m.title ++ "\n" ++ m.content

/-- The recency bonus: `max(0.1, 1.0 − 0.1·daysSinceAccess)` when
`last_accessed_at` is present, else `0.5`. -/
def recencyBonus (now : Int) (m : Memory) : ℚ :=
  match m.last_accessed_at with
  | some t => max (1/10) (1 - ((now - t : Int) : ℚ) * (1/10))
  | none => 1/2

/-- The composite score of `recall`:
`relevance · importance · strength · recencyBonus`, with the JavaScript
`|| 0.5` / `|| 1.0` fallbacks (which fire exactly on the value `0`).
`mem.score || 0` is the identity on numeric scores. -/
def compositeScore (now : Int) (sm : ScoredMemory) : ℚ :=
  let relevance := sm.score
  let importance := if sm.mem.importance = 0 then 1/2 else sm.mem.importance
  let strength := if sm.mem.strength = 0 then 1 else sm.mem.strength
  relevance * importance * strength * recencyBonus now sm.mem

/-- Scoring and the stable descending sort of `recall` (steps 2–3 header). -/
def rankCandidates (now : Int) (searchResults : List ScoredMemory) : List ScoredMemory :=
  (searchResults.map (fun sm =>
    (⟨sm.mem, compositeScore now sm⟩ : ScoredMemory))).insertionSort
    (fun a b => b.score < a.score)

/-- The token-budget packing loop of `recall`: `break` at the first
candidate that would overflow the budget once at least one memory is in,
else push and accumulate. -/
def packLoop (budget : Nat) : List ScoredMemory → Nat → Bool → List ScoredMemory
  | [], _, _ => []
  | sm :: rest, tokenCount, anyYet =>
    let memTokens := estimateTokens (renderMemory sm.mem)
    if budget < tokenCount + memTokens ∧ anyYet then []
    else sm :: packLoop budget rest (tokenCount + memTokens) true

/-- The `memories` list assembled by `recall` from the hybrid-search
candidates (the hybrid search itself is the oracle boundary here). -/
def recallMemories (now : Int) (budget : Nat)
    (searchResults : List ScoredMemory) : List ScoredMemory :=
  packLoop budget (rankCandidates now searchResults) 0 false

/-! ## Concrete instances used by witnesses and counterexamples -/

/-- A `permanent`-tagged memory: strength 0.01, last accessed 30 days ago
(the shape of scenario 5 of the specification). -/
def memPermEx : Memory :=
  { id := 1, mtype := "fact", title := "Permanent memory", content := "kept",
    embedding := some [1], importance := 1/2, strength := 1/100,
    access_count := 0, last_accessed_at := some (-30), created_at := -30,
    archived := false }

/-- A store holding only `memPermEx`, joined to the `permanent` tag. -/
def storePermEx : Store :=
  { memories := [memPermEx], memTags := [(1, "permanent")],
    tagNames := ["permanent"], links := [], lastConsolidationAt := none,
    nextId := 2 }

/-- A memory created 100 days before the reference instant. -/
def memOld : Memory :=
  { id := 1, mtype := "fact", title := "Old", content := "old content",
    embedding := some [1], importance := 1/2, strength := 1, access_count := 0,
    last_accessed_at := none, created_at := -100, archived := false }

/-- A store holding only `memOld`. -/
def storeOld : Store :=
  { memories := [memOld], memTags := [], tagNames := [], links := [],
    lastConsolidationAt := none, nextId := 2 }

/-- The stored memory of the merge scenario (scenario 2 of the
specification). -/
def memLib : Memory :=
  { id := 1, mtype := "fact", title := "LibSQL notes",
    content := "LibSQL provides native vector search with DiskANN and FTS5.",
    embedding := some [1], importance := 1, strength := 1, access_count := 0,
    last_accessed_at := none, created_at := 0, archived := false }

/-- A store holding only `memLib`. -/
def storeLib : Store :=
  { memories := [memLib], memTags := [], tagNames := [], links := [],
    lastConsolidationAt := none, nextId := 2 }

/-- The expanded note whose longer title the merge adopts. -/
def inputLib : AddInput :=
  { mtype := "fact", title := "LibSQL notes (expanded)",
    content := "LibSQL provides native vector search with DiskANN, FTS5, and triggers." }

/-! ## General helper lemmas -/

/-- Inserting into a descending-by-key list with the strict comparator
keeps it descending. -/
theorem pairwise_orderedInsert_desc {α : Type} (f : α → ℚ) (a : α) (l : List α)
    (h : List.Pairwise (fun x y => f y ≤ f x) l) :
    List.Pairwise (fun x y => f y ≤ f x)
      (l.orderedInsert (fun x y => f y < f x) a) := by
  induction l with
  | nil => simp
  | cons b t ih =>
    rw [List.orderedInsert]
    obtain ⟨hb, ht⟩ := List.pairwise_cons.1 h
    by_cases hab : f b < f a
    · rw [if_pos hab]
      refine List.Pairwise.cons (fun y hy => ?_) (List.Pairwise.cons hb ht)
      rcases List.mem_cons.1 hy with rfl | hy
      · exact le_of_lt hab
      · exact le_trans (hb y hy) (le_of_lt hab)
    · rw [if_neg hab]
      refine List.Pairwise.cons (fun y hy => ?_) (ih ht)
      rcases (List.mem_orderedInsert _).1 hy with rfl | hy
      · exact le_of_not_lt hab
      · exact hb y hy

/-- A sort with the strict descending comparator (the stable descending
sort) is pairwise descending. -/
theorem pairwise_insertionSort_desc {α : Type} (f : α → ℚ) (l : List α) :
    List.Pairwise (fun a b => f b ≤ f a)
      (l.insertionSort (fun a b => f b < f a)) := by
  induction l with
  | nil => simp
  | cons a t ih => exact pairwise_orderedInsert_desc f a _ ih

/-- Inserting into an ascending-by-key list with the strict comparator
keeps it ascending. -/
theorem pairwise_orderedInsert_asc {α : Type} (f : α → ℚ) (a : α) (l : List α)
    (h : List.Pairwise (fun x y => f x ≤ f y) l) :
    List.Pairwise (fun x y => f x ≤ f y)
      (l.orderedInsert (fun x y => f x < f y) a) := by
  induction l with
  | nil => simp
  | cons b t ih =>
    rw [List.orderedInsert]
    obtain ⟨hb, ht⟩ := List.pairwise_cons.1 h
    by_cases hab : f a < f b
    · rw [if_pos hab]
      refine List.Pairwise.cons (fun y hy => ?_) (List.Pairwise.cons hb ht)
      rcases List.mem_cons.1 hy with rfl | hy
      · exact le_of_lt hab
      · exact le_trans (le_of_lt hab) (hb y hy)
    · rw [if_neg hab]
      refine List.Pairwise.cons (fun y hy => ?_) (ih ht)
      rcases (List.mem_orderedInsert _).1 hy with rfl | hy
      · exact le_of_not_lt hab
      · exact hb y hy

/-- A sort with the strict ascending comparator (the stable ascending
sort) is pairwise ascending. -/
theorem pairwise_insertionSort_asc {α : Type} (f : α → ℚ) (l : List α) :
    List.Pairwise (fun a b => f a ≤ f b)
      (l.insertionSort (fun a b => f a < f b)) := by
  induction l with
  | nil => simp
  | cons a t ih => exact pairwise_orderedInsert_asc f a _ ih

/-! ## C9 — `cosineSimilarity` -/

theorem sumSq_nonneg (l : List ℝ) : 0 ≤ sumSq l := by
  induction l with
  | nil => simp [sumSq]
  | cons x xs ih =>
    have hx := mul_self_nonneg x
    simp only [sumSq]
    linarith

/-- C9: `cosineSimilarity(a,b)` raises an error if and only if the input
dimensions differ; for equal-dimension inputs it returns the dot product
divided by the product of the L2 norms, and returns exactly 0 whenever
either norm is zero (in particular on a zero vector) and exactly 0 on
orthogonal inputs. -/
theorem cosineSimilarity_spec (a b : List ℝ) :
    ((cosineSimilarity a b).isOk = false ↔ a.length ≠ b.length)
    ∧ (a.length = b.length → sumSq a ≠ 0 → sumSq b ≠ 0 →
        cosineSimilarity a b =
          .ok (dotList a b / (Real.sqrt (sumSq a) * Real.sqrt (sumSq b))))
    ∧ (a.length = b.length → (sumSq a = 0 ∨ sumSq b = 0) →
        cosineSimilarity a b = .ok 0)
    ∧ (a.length = b.length → dotList a b = 0 → cosineSimilarity a b = .ok 0) := by
  by_cases hlen : a.length = b.length
  · constructor
    · rw [cosineSimilarity]
      simp only [hlen, ne_eq, not_true_eq_false, if_false, iff_false]
      split <;> simp [Except.isOk, Except.toBool]
    · refine ⟨fun _ ha hb => ?_, fun _ hz => ?_, fun _ hd => ?_⟩
      · have hsa : Real.sqrt (sumSq a) ≠ 0 := by
          rw [ne_eq, Real.sqrt_eq_zero (sumSq_nonneg a)]
          exact ha
        have hsb : Real.sqrt (sumSq b) ≠ 0 := by
          rw [ne_eq, Real.sqrt_eq_zero (sumSq_nonneg b)]
          exact hb
        rw [cosineSimilarity]
        simp only [hlen, ne_eq, not_true_eq_false, if_false]
        rw [if_neg (mul_ne_zero hsa hsb)]
      · rw [cosineSimilarity]
        simp only [hlen, ne_eq, not_true_eq_false, if_false]
        have hdenom : Real.sqrt (sumSq a) * Real.sqrt (sumSq b) = 0 := by
          rcases hz with h | h
          · rw [h, Real.sqrt_zero, zero_mul]
          · rw [h, Real.sqrt_zero, mul_zero]
        rw [if_pos hdenom]
      · rw [cosineSimilarity]
        simp only [hlen, ne_eq, not_true_eq_false, if_false]
        split
        · rfl
        · rw [hd, zero_div]
  · rw [cosineSimilarity, if_pos hlen]
    refine ⟨by simp [Except.isOk, Except.toBool, hlen], ?_, ?_, ?_⟩ <;>
      exact fun h => absurd h hlen

/-- Witness for C9 at concrete inputs: `[1, 0]` and `[0, 2]` have equal
dimension and dot product 0, so the result is exactly 0. -/
theorem cosineSimilarity_spec_witness :
    cosineSimilarity [(1 : ℝ), 0] [0, 2] = .ok 0 :=
  (cosineSimilarity_spec [1, 0] [0, 2]).2.2.2 (by simp)
    (by norm_num [dotList])

/-! ## C4 — permanent memories are exempt from decay and prune -/

theorem forall₂_map_self {α : Type} (f : α → α) (R : α → α → Prop) (l : List α)
    (h : ∀ a ∈ l, R a (f a)) : List.Forall₂ R l (l.map f) := by
  rw [List.forall₂_map_right_iff]
  exact List.forall₂_same.2 h

/-- C4: a memory joined to the tag named literally `permanent` keeps its
strength through the decay step and its archived flag through the prune
step, for all parameter values, and the dry runs mutate nothing at all. -/
theorem permanent_decay_prune_exempt (s : Store) (decayRate threshold : ℚ)
    (lastRunAt : Option Int) (now : Int) :
    List.Forall₂ (fun m₀ m₁ => isPermanent s m₀.id = true → m₁.strength = m₀.strength)
      s.memories (stepDecay s decayRate false lastRunAt now).1.memories
    ∧ List.Forall₂ (fun m₀ m₁ => isPermanent s m₀.id = true → m₁.archived = m₀.archived)
      s.memories (stepPrune s threshold false).1.memories
    ∧ (stepDecay s decayRate true lastRunAt now).1 = s
    ∧ (stepPrune s threshold true).1 = s := by
  refine ⟨?_, ?_, rfl, rfl⟩
  · exact forall₂_map_self _ _ _ (fun m _ hperm => by
      simp [decayHits, hperm])
  · exact forall₂_map_self _ _ _ (fun m _ hperm => by
      simp [pruneHits, hperm])

/-- Witness for C4 at a concrete store holding one `permanent` memory of
strength 0.01 last accessed 30 days ago. -/
theorem permanent_decay_prune_exempt_witness :
    List.Forall₂
      (fun m₀ m₁ => isPermanent storePermEx m₀.id = true → m₁.strength = m₀.strength)
      storePermEx.memories (stepDecay storePermEx (95/100) false none 0).1.memories
    ∧ List.Forall₂
      (fun m₀ m₁ => isPermanent storePermEx m₀.id = true → m₁.archived = m₀.archived)
      storePermEx.memories (stepPrune storePermEx (5/100) false).1.memories
    ∧ (stepDecay storePermEx (95/100) true none 0).1 = storePermEx
    ∧ (stepPrune storePermEx (5/100) true).1 = storePermEx :=
  permanent_decay_prune_exempt storePermEx (95/100) (5/100) none 0

/-! ## C10 — the brute-force fallback ignores `since` -/

/-- C10: the brute-force fallback of `searchSemantic` does not read the
`since` option at all, its results are constrained only by the `archived`
and `type` filters, and any failure of the indexed path — a missing index
in particular — degrades to exactly this scan. -/
theorem bruteforce_since_spec (vdc : List ℚ → List ℚ → ℚ)
    (vecTopK : List ℚ → Nat → List (Nat × ℚ)) (s : Store) (q : List ℚ)
    (k : Nat) (type? : Option String) (inclArch : Bool) (s₁ s₂ : Option String)
    (now : ℚ) :
    searchSemanticBruteForce vdc s q ⟨k, type?, inclArch, s₁⟩
      = searchSemanticBruteForce vdc s q ⟨k, type?, inclArch, s₂⟩
    ∧ (∀ sm ∈ searchSemanticBruteForce vdc s q ⟨k, type?, inclArch, s₁⟩,
        (inclArch = false → sm.mem.archived = false)
        ∧ matchesType type? sm.mem = true
        ∧ sm.mem ∈ s.memories)
    ∧ searchSemantic false vecTopK vdc s now q ⟨k, type?, inclArch, s₁⟩
        = .ok (searchSemanticBruteForce vdc s q ⟨k, type?, inclArch, s₁⟩) := by
  refine ⟨rfl, ?_, ?_⟩
  · intro sm hsm
    have h1 : sm ∈ (s.memories.filterMap (fun m =>
        match m.embedding with
        | some e =>
          if (inclArch || !m.archived) && matchesType type? m then
            some (⟨m, vdc e q⟩ : ScoredMemory)
          else none
        | none => none)) := by
      have h2 := List.mem_of_mem_take hsm
      exact ((List.perm_insertionSort _ _).mem_iff).1 h2
    rw [List.mem_filterMap] at h1
    obtain ⟨m, hm, hf⟩ := h1
    rcases he : m.embedding with _ | e
    · rw [he] at hf; exact absurd hf (by simp)
    · rw [he] at hf
      have hf' : (if ((inclArch || !m.archived) && matchesType type? m) = true then
          some (⟨m, vdc e q⟩ : ScoredMemory) else none) = some sm := hf
      by_cases hc : ((inclArch || !m.archived) && matchesType type? m) = true
      · rw [if_pos hc] at hf'
        rw [Bool.and_eq_true] at hc
        obtain ⟨hc1, hc2⟩ := hc
        have hmem : sm.mem = m := by cases hf'; rfl
        refine ⟨fun hi => ?_, by rw [hmem]; exact hc2, by rw [hmem]; exact hm⟩
        rw [hi] at hc1
        simpa [hmem] using hc1
      · rw [if_neg hc] at hf'
        exact absurd hf' (by simp)
  · rcases s₁ with _ | str
    · rfl
    · rcases hp : parseSince now str with e | v
      · simp [searchSemantic, searchSemanticIndexed, hp, Except.map]
      · simp [searchSemantic, searchSemanticIndexed, hp, Except.map]

/-- Witness for C10: a store whose only memory is 100 days old is still
returned by the fallback under `since = "1h"`. -/
theorem bruteforce_since_spec_witness :
    (∀ sm ∈ searchSemanticBruteForce (fun _ _ => 0) storeOld [1]
        ⟨10, none, false, some "1h"⟩,
      (false = false → sm.mem.archived = false)
      ∧ matchesType none sm.mem = true ∧ sm.mem ∈ storeOld.memories)
    ∧ searchSemanticBruteForce (fun _ _ => 0) storeOld [1] ⟨10, none, false, some "1h"⟩
        = [⟨memOld, 0⟩]
    ∧ memOld.created_at < 0 :=
  ⟨(bruteforce_since_spec (fun _ _ => 0) (fun _ _ => []) storeOld [1] 10 none false
      (some "1h") (some "1h") 0).2.1,
   by with_unfolding_all rfl, by decide⟩

/-! ## C8 — behaviour of the three search operations on a malformed `since` -/

/-- An empty store. -/
def storeEmpty : Store :=
  { memories := [], memTags := [], tagNames := [], links := [],
    lastConsolidationAt := none, nextId := 1 }

/-- Counterexample to C8: with the malformed `since = "soon"`,
`searchSemantic` and `searchHybrid` complete without any error (the parse
failure is swallowed by the `try`/`catch` around the indexed path and by
`.catch(() => [])` around the FTS call); only `searchFTS` would reject. -/
theorem since_malformed_counterexample :
    (parseSince 0 "soon").isOk = false
    ∧ (searchSemantic true (fun _ _ => []) (fun _ _ => 0) storeEmpty 0 [1]
        ⟨10, none, false, some "soon"⟩).isOk = true
    ∧ (searchHybrid true (fun _ _ => []) (fun _ _ => 0) (fun _ => [])
        (fun _ _ => 0) storeEmpty 0 "q" [1] 10 none 60 false (some "soon") 0).isOk
        = true := by
  refine ⟨by decide, by decide, by decide⟩

/-- A failed `parseSince` always carries the `Invalid since format`
message. -/
theorem parseSince_error_eq (now : ℚ) (since : String)
    (h : (parseSince now since).isOk = false) :
    parseSince now since = .error (sinceErrorMsg since) := by
  rcases hlast : since.data.getLast? with _ | last
  · simp [parseSince, hlast]
  · rcases hunit : sinceUnitDays last with _ | unit
    · simp [parseSince, hlast, hunit]
    · by_cases hd : since.data.dropLast ≠ [] ∧ since.data.dropLast.all Char.isDigit
      · exfalso
        simp [parseSince, hlast, hunit, hd, Except.isOk, Except.toBool] at h
      · simp only [parseSince, hlast, hunit, if_neg hd]

/-- C8 amended: on a malformed `since`, `searchFTS` rejects with the
`Invalid since format` error (whose message names the `since` field),
while `searchSemantic` silently degrades to the brute-force scan — which
ignores `since` — and `searchHybrid` also completes without an error. -/
theorem since_malformed_amended (fts : String → List (Nat × ℚ))
    (vecIndexOk : Bool) (vecTopK : List ℚ → Nat → List (Nat × ℚ))
    (vdc : List ℚ → List ℚ → ℚ) (rr : String → String → ℚ) (s : Store)
    (now : ℚ) (q : String) (qEmb : List ℚ) (opts : SearchOptions)
    (since : String) (k : Nat) (type? : Option String) (rrf_k : ℚ)
    (useRerank : Bool) (hops : Nat)
    (hbad : (parseSince now since).isOk = false) :
    searchFTS fts s now q { opts with since? := some since }
      = .error (sinceErrorMsg since)
    ∧ "since".data <:+: (sinceErrorMsg since).data
    ∧ searchSemantic vecIndexOk vecTopK vdc s now qEmb
        { opts with since? := some since }
      = .ok (searchSemanticBruteForce vdc s qEmb { opts with since? := some since })
    ∧ (searchHybrid vecIndexOk vecTopK vdc fts rr s now q qEmb k type? rrf_k
        useRerank (some since) hops).isOk = true := by
  have hp := parseSince_error_eq now since hbad
  have hsem : ∀ (opts' : SearchOptions), opts'.since? = some since →
      searchSemantic vecIndexOk vecTopK vdc s now qEmb opts'
        = .ok (searchSemanticBruteForce vdc s qEmb opts') := by
    intro opts' hsince
    simp [searchSemantic, searchSemanticIndexed, hsince, hp, Except.map]
  refine ⟨?_, ?_, ?_, ?_⟩
  · simp [searchFTS, hp, Except.map]
  · have h1 : "since".data <:+: "Invalid since format: ".data := by decide
    have h2 : ("Invalid since format: ".data)
        <+: ("Invalid since format: ".data
          ++ (since.data ++ (". Use: 1h, 6h, 1d, 7d, 30d, 1w, 1m").data)) :=
      List.prefix_append _ _
    have h3 : (sinceErrorMsg since).data
        = "Invalid since format: ".data
          ++ (since.data ++ (". Use: 1h, 6h, 1d, 7d, 30d, 1w, 1m").data) := by
      simp [sinceErrorMsg, String.data_append]
    rw [h3]
    exact h1.trans h2.isInfix
  · exact hsem _ rfl
  · rw [searchHybrid]
    rw [hsem { k := max (k * 3) 20, type? := type?, since? := some since } rfl]
    rfl

/-- Witness for the amended C8 at `since = "soon"` over the empty store. -/
theorem since_malformed_amended_witness :
    searchFTS (fun _ => []) storeEmpty 0 "q" { since? := some "soon" }
      = .error (sinceErrorMsg "soon")
    ∧ "since".data <:+: (sinceErrorMsg "soon").data
    ∧ searchSemantic true (fun _ _ => []) (fun _ _ => 0) storeEmpty 0 [1]
        { since? := some "soon" }
      = .ok (searchSemanticBruteForce (fun _ _ => 0) storeEmpty [1]
          { since? := some "soon" })
    ∧ (searchHybrid true (fun _ _ => []) (fun _ _ => 0) (fun _ => [])
        (fun _ _ => 0) storeEmpty 0 "q" [1] 10 none 60 false (some "soon") 0).isOk
        = true :=
  since_malformed_amended (fun _ => []) true (fun _ _ => []) (fun _ _ => 0)
    (fun _ _ => 0) storeEmpty 0 "q" [1] { since? := some "soon" } "soon" 10 none 60
    false 0 (by decide)

/-! ## C2 — tags on an exact-duplicate `add` -/

/-- The memory of the repository's own regression test
`BUG: tags should be applied on exact duplicate add`. -/
def memDupTag : Memory :=
  { id := 1, mtype := "fact", title := "Duplicate Tag Test",
    content := "Test content for tag dedup", embedding := some [1],
    importance := 1, strength := 1, access_count := 0,
    last_accessed_at := none, created_at := 0, archived := false }

/-- A store holding `memDupTag` with its original tag. -/
def storeDupTag : Store :=
  { memories := [memDupTag], memTags := [(1, "original")],
    tagNames := ["original"], links := [], lastConsolidationAt := none,
    nextId := 2 }

/-- The second `add` call of that test: same type and title, carrying the
`permanent` tag. -/
def inputDupTag : AddInput :=
  { mtype := "fact", title := "Duplicate Tag Test",
    content := "Test content for tag dedup", tags := ["permanent"] }

/-- C2 (code bug): an exact-duplicate `add` carrying a new tag returns
`{id, duplicate}` and bumps the access counter — but the supplied tag is
not applied to the existing memory: the memory–tag join is left exactly as
it was, without the `permanent` row the test and the specification
require. -/
theorem duplicate_add_drops_tags :
    (addMemory (fun _ => [1]) true (fun _ _ => [(1, 0)]) storeDupTag 5
        inputDupTag).2 = ⟨1, .duplicate⟩
    ∧ (findMem (addMemory (fun _ => [1]) true (fun _ _ => [(1, 0)]) storeDupTag 5
        inputDupTag).1 1).map Memory.access_count = some 1
    ∧ (addMemory (fun _ => [1]) true (fun _ _ => [(1, 0)]) storeDupTag 5
        inputDupTag).1.memTags = [(1, "original")]
    ∧ ((1, "permanent") ∉ (addMemory (fun _ => [1]) true (fun _ _ => [(1, 0)])
        storeDupTag 5 inputDupTag).1.memTags) := by
  refine ⟨by decide, by decide, by decide, by decide⟩

/-! ## C1 — `rerank=true` and graph expansion -/

/-- The directly-matching memory of the test
`BUG: hops should work even with rerank=true`. -/
def memA : Memory :=
  { id := 1, mtype := "fact", title := "Vector Indexing Algorithms",
    content := "DiskANN and HNSW are popular algorithms.",
    embedding := some [1], importance := 1, strength := 1, access_count := 0,
    last_accessed_at := none, created_at := 0, archived := false }

/-- The linked memory that only graph expansion can reach. -/
def memB : Memory :=
  { id := 2, mtype := "fact", title := "DiskANN Performance",
    content := "DiskANN achieves state-of-the-art recall.",
    embedding := some [1], importance := 1, strength := 1, access_count := 0,
    last_accessed_at := none, created_at := 0, archived := false }

/-- Both memories with the link `1 → 2 (related_to)`; only memory 1 is
returned by the retrieval oracles. -/
def storeAB : Store :=
  { memories := [memA, memB], memTags := [], tagNames := [],
    links := [⟨1, 2, "related_to", 1⟩], lastConsolidationAt := none,
    nextId := 3 }

/-- C1 (code bug): on the linked pair, `searchHybrid` with `hops = 1`
returns the linked memory 2 when `rerank = false`, but with
`rerank = true` the rerank branch returns early and the expansion never
runs — the result is identical to `hops = 0` and memory 2 is missing,
contrary to the specification and to the repository's own regression
test. -/
theorem rerank_skips_hops :
    ((searchHybrid true (fun _ _ => [(1, 0)]) (fun _ _ => 0) (fun _ => [])
        (fun _ _ => 0) storeAB 0 "q" [1] 5 none 60 true none 1).toOption.getD
        []).map (fun sm => sm.mem.id) = [1]
    ∧ ((searchHybrid true (fun _ _ => [(1, 0)]) (fun _ _ => 0) (fun _ => [])
        (fun _ _ => 0) storeAB 0 "q" [1] 5 none 60 false none 1).toOption.getD
        []).map (fun sm => sm.mem.id) = [1, 2]
    ∧ searchHybrid true (fun _ _ => [(1, 0)]) (fun _ _ => 0) (fun _ => [])
        (fun _ _ => 0) storeAB 0 "q" [1] 5 none 60 true none 1
      = searchHybrid true (fun _ _ => [(1, 0)]) (fun _ _ => 0) (fun _ => [])
        (fun _ _ => 0) storeAB 0 "q" [1] 5 none 60 true none 0 := by
  refine ⟨by decide, by decide, by with_unfolding_all rfl⟩

/-! ## C7 — `recall` token-budget packing -/

/-- The token cost charged for one packed memory. -/
def memCost (sm : ScoredMemory) : Nat :=
  estimateTokens (renderMemory sm.mem)

/-- The accumulated token count of a packed list. -/
def totalCost (l : List ScoredMemory) : Nat :=
  (l.map memCost).sum

theorem packLoop_prefix (budget : Nat) :
    ∀ (l : List ScoredMemory) (tok : Nat) (any : Bool),
      ∃ n, n ≤ l.length ∧ packLoop budget l tok any = l.take n := by
  intro l
  induction l with
  | nil => exact fun tok any => ⟨0, by simp, rfl⟩
  | cons sm rest ih =>
    intro tok any
    rw [packLoop]
    by_cases h : budget < tok + estimateTokens (renderMemory sm.mem) ∧ any = true
    · exact ⟨0, by simp, by rw [if_pos h]; rfl⟩
    · obtain ⟨n, hn, he⟩ := ih (tok + estimateTokens (renderMemory sm.mem)) true
      exact ⟨n + 1, by simpa using hn, by rw [if_neg h, he]; rfl⟩

theorem packLoop_fit (budget : Nat) :
    ∀ (l : List ScoredMemory) (tok : Nat) (any : Bool) (i : Nat) (sm : ScoredMemory),
      ((packLoop budget l tok any).drop i).head? = some sm →
      (any = true ∨ 0 < i) →
      tok + totalCost ((packLoop budget l tok any).take i) + memCost sm ≤ budget := by
  intro l
  induction l with
  | nil => intro tok any i sm h _; rw [packLoop] at h; simp at h
  | cons x rest ih =>
    intro tok any i sm h hcase
    rw [packLoop] at h ⊢
    by_cases hb : budget < tok + estimateTokens (renderMemory x.mem) ∧ any = true
    · rw [if_pos hb] at h; simp at h
    · rw [if_neg hb] at h ⊢
      cases i with
      | zero =>
        rcases hcase with hany | hlt
        · simp only [List.drop_zero, List.head?_cons, Option.some.injEq] at h
          have hnb : ¬ budget < tok + estimateTokens (renderMemory x.mem) :=
            fun hc => hb ⟨hc, hany⟩
          subst h
          simp only [List.take_zero, totalCost, List.map_nil, List.sum_nil,
            Nat.add_zero, memCost]
          omega
        · exact absurd hlt (by omega)
      | succ j =>
        have h' : ((packLoop budget rest
            (tok + estimateTokens (renderMemory x.mem)) true).drop j).head?
            = some sm := by simpa using h
        have hr := ih (tok + estimateTokens (renderMemory x.mem)) true j sm h'
          (Or.inl rfl)
        simp only [List.take_succ_cons, totalCost, List.map_cons, List.sum_cons,
          memCost] at hr ⊢
        omega

theorem packLoop_stop (budget : Nat) :
    ∀ (l : List ScoredMemory) (tok : Nat) (any : Bool) (sm : ScoredMemory),
      ((l.drop (packLoop budget l tok any).length).head? = some sm) →
      budget < tok + totalCost (packLoop budget l tok any) + memCost sm
      ∧ (any = true ∨ 1 ≤ (packLoop budget l tok any).length) := by
  intro l
  induction l with
  | nil => intro tok any sm h; simp at h
  | cons x rest ih =>
    intro tok any sm h
    rw [packLoop] at h ⊢
    by_cases hb : budget < tok + estimateTokens (renderMemory x.mem) ∧ any = true
    · rw [if_pos hb] at h ⊢
      simp only [List.length_nil, List.drop_zero, List.head?_cons,
        Option.some.injEq] at h
      subst h
      exact ⟨by simpa [totalCost, memCost] using hb.1, Or.inl hb.2⟩
    · rw [if_neg hb] at h ⊢
      have h' : (rest.drop (packLoop budget rest
          (tok + estimateTokens (renderMemory x.mem)) true).length).head?
          = some sm := by simpa using h
      obtain ⟨h1, _⟩ := ih (tok + estimateTokens (renderMemory x.mem)) true sm h'
      refine ⟨?_, Or.inr (by simp)⟩
      simp only [totalCost, List.map_cons, List.sum_cons, memCost] at h1 ⊢
      omega

/-- C7: whenever hybrid search yields at least one candidate, `recall`
packs a prefix of the candidates sorted by composite score descending
using the `⌈length/3.5⌉` estimator over `"[type] title\ncontent"`, always
includes the first memory (so the result is never empty, whatever the
budget — 50 in particular), stops exactly at the first candidate that
would overflow the budget thereafter, and every included memory after the
first did fit the budget when it was added. -/
theorem recall_packing_spec (now : Int) (budget : Nat)
    (searchResults : List ScoredMemory) (h : searchResults ≠ []) :
    recallMemories now budget searchResults ≠ []
    ∧ (recallMemories now budget searchResults).head?
        = (rankCandidates now searchResults).head?
    ∧ (∃ n, recallMemories now budget searchResults
        = (rankCandidates now searchResults).take n)
    ∧ List.Pairwise (fun a b => b.score ≤ a.score)
        (recallMemories now budget searchResults)
    ∧ (∀ sm, ((rankCandidates now searchResults).drop
          (recallMemories now budget searchResults).length).head? = some sm →
        budget < totalCost (recallMemories now budget searchResults) + memCost sm)
    ∧ (∀ i sm, ((recallMemories now budget searchResults).drop i).head? = some sm →
        0 < i →
        totalCost ((recallMemories now budget searchResults).take i) + memCost sm
          ≤ budget) := by
  have hsortne : rankCandidates now searchResults ≠ [] := by
    intro hcon
    have hperm := List.perm_insertionSort
      (fun (a b : ScoredMemory) => b.score < a.score)
      (searchResults.map (fun sm =>
        (⟨sm.mem, compositeScore now sm⟩ : ScoredMemory)))
    rw [rankCandidates] at hcon
    rw [hcon] at hperm
    have := hperm.symm.length_eq
    simp at this
    exact h (List.eq_nil_of_length_eq_zero (by simp [this]))
  have hpw : List.Pairwise (fun (a b : ScoredMemory) => b.score ≤ a.score)
      (rankCandidates now searchResults) :=
    pairwise_insertionSort_desc (fun sm : ScoredMemory => sm.score) _
  constructor
  · rcases hsort : rankCandidates now searchResults with _ | ⟨x, rest⟩
    · exact absurd hsort hsortne
    · rw [recallMemories] at *
      rw [hsort, packLoop]
      have : ¬ (budget < 0 + estimateTokens (renderMemory x.mem) ∧ false = true) := by
        simp
      rw [if_neg this]
      simp
  refine ⟨?_, ?_, ?_, ?_, ?_⟩
  · rcases hsort : rankCandidates now searchResults with _ | ⟨x, rest⟩
    · exact absurd hsort hsortne
    · rw [recallMemories, hsort, packLoop]
      have : ¬ (budget < 0 + estimateTokens (renderMemory x.mem) ∧ false = true) := by
        simp
      rw [if_neg this]
      rfl
  · obtain ⟨n, _, he⟩ := packLoop_prefix budget (rankCandidates now searchResults) 0 false
    exact ⟨n, he⟩
  · obtain ⟨n, _, he⟩ := packLoop_prefix budget (rankCandidates now searchResults) 0 false
    rw [recallMemories, he]
    exact hpw.sublist (List.take_sublist n _)
  · intro sm hsm
    have := (packLoop_stop budget (rankCandidates now searchResults) 0 false sm hsm).1
    simpa using this
  · intro i sm hsm hi
    have := packLoop_fit budget (rankCandidates now searchResults) 0 false i sm hsm
      (Or.inr hi)
    simpa using this

/-- A memory whose rendered form alone costs more than 50 tokens. -/
def memLong : Memory :=
  { id := 1, mtype := "fact", title := "A long memory",
    content := "This content is deliberately made long enough that its estimated token count alone exceeds the small budget of fifty tokens used by the boundary scenario of the specification for the recall operation.",
    embedding := some [1], importance := 1, strength := 1, access_count := 0,
    last_accessed_at := none, created_at := 0, archived := false }

set_option maxRecDepth 8000 in
/-- Witness for C7: with budget 50 and a single candidate costing more
than 50 tokens, `recall` still returns that memory. -/
theorem recall_packing_spec_witness :
    recallMemories 0 50 [⟨memLong, 1⟩] ≠ []
    ∧ 50 < memCost ⟨memLong, 1⟩ :=
  ⟨(recall_packing_spec 0 50 [⟨memLong, 1⟩] (by decide)).1, by decide⟩

/-! ## C6 — Reciprocal Rank Fusion -/

/-- Spec-side definition (following the specification's words): the
contribution of a retrieval list to the memory with id `i` — the rank-`r`
entry of the list contributes `1/(rrf_k + r + 1) · qualityBoost` when its
id is `i`, ranks counted from `r₀`. -/
def specContribution (rrf_k : ℚ) (i : Nat) : List ScoredMemory → Nat → ℚ
  | [], _ => 0
  | sm :: rest, r =>
    if sm.mem.id = i then rrfContribution rrf_k r sm.mem
    else specContribution rrf_k i rest (r + 1)

/-- The score the fusion map holds for the id `i`. -/
def fuseLookupScore (acc : List (Memory × ℚ)) (i : Nat) : Option ℚ :=
  (acc.find? (fun p => p.1.id == i)).map (fun p => p.2)

theorem specContribution_not_mem (rrf_k : ℚ) (i : Nat) :
    ∀ (l : List ScoredMemory) (r : Nat),
      i ∉ l.map (fun sm => sm.mem.id) → specContribution rrf_k i l r = 0 := by
  intro l
  induction l with
  | nil => intro r _; rfl
  | cons sm rest ih =>
    intro r h
    rw [List.map_cons, List.mem_cons] at h
    push_neg at h
    rw [specContribution, if_neg (fun he => h.1 he.symm)]
    exact ih (r + 1) h.2

theorem fuseLookupScore_nil (i : Nat) : fuseLookupScore [] i = none := rfl

theorem fuseLookupScore_none_iff (acc : List (Memory × ℚ)) (i : Nat) :
    fuseLookupScore acc i = none ↔ acc.any (fun p => p.1.id == i) = false := by
  rw [fuseLookupScore, Option.map_eq_none', List.find?_eq_none]
  simp

theorem mapSet_no_key (acc : List (Memory × ℚ)) (m : Memory) (v : ℚ)
    (h : acc.any (fun p => p.1.id == m.id) = false) :
    mapSet acc m v = acc ++ [(m, v)] := by
  rw [mapSet, if_neg]
  simp [h]

theorem fuseLookupScore_append (acc₁ acc₂ : List (Memory × ℚ)) (i : Nat) :
    fuseLookupScore (acc₁ ++ acc₂) i
    = (fuseLookupScore acc₁ i).or (fuseLookupScore acc₂ i) := by
  rw [fuseLookupScore, fuseLookupScore, fuseLookupScore, List.find?_append]
  rcases h : acc₁.find? (fun p => p.1.id == i) with _ | p <;> simp [h]

theorem fuseLookupScore_mapAdd (acc : List (Memory × ℚ)) (j : Nat) (v : ℚ)
    (i : Nat) :
    fuseLookupScore (mapAdd acc j v) i
    = if i = j then (fuseLookupScore acc i).map (fun x => x + v)
      else fuseLookupScore acc i := by
  induction acc with
  | nil => rcases h : decide (i = j) <;> simp_all [mapAdd, fuseLookupScore]
  | cons p rest ih =>
    by_cases h1 : p.1.id = i
    · by_cases h2 : i = j
      · subst h1; subst h2
        simp [mapAdd, fuseLookupScore, List.find?_cons_of_pos]
      · have hpj : (p.1.id == j) = false := by
          simp only [beq_eq_false_iff_ne, ne_eq]
          exact fun he => h2 (h1 ▸ he)
        simp [mapAdd, fuseLookupScore, List.find?_cons_of_pos, h1, hpj, h2]
    · have hpi : (p.1.id == i) = false := by
        simp only [beq_eq_false_iff_ne, ne_eq]
        exact h1
      by_cases h2 : p.1.id = j
      · simp only [mapAdd, List.map_cons, h2, beq_self_eq_true, if_true]
        rw [fuseLookupScore, List.find?_cons_of_neg _ (by simp [hpi]),
          fuseLookupScore, List.find?_cons_of_neg _ (by simp [hpi])]
        exact ih
      · have hpj : (p.1.id == j) = false := by
          simp only [beq_eq_false_iff_ne, ne_eq]
          exact h2
        simp only [mapAdd, List.map_cons, hpj, Bool.false_eq_true, if_false]
        rw [fuseLookupScore, List.find?_cons_of_neg _ (by simp [hpi]),
          fuseLookupScore, List.find?_cons_of_neg _ (by simp [hpi])]
        exact ih

/-- The semantic pass of `rrfFuse`: when the semantic ids are distinct and
none is already a key of the accumulator, the pass appends one entry per
semantic row and leaves existing entries untouched. -/
theorem rrfFuse_semPass (rrf_k : ℚ) :
    ∀ (sem : List ScoredMemory) (n : Nat) (acc : List (Memory × ℚ)),
      (sem.map (fun sm => sm.mem.id)).Nodup →
      (∀ sm ∈ sem, fuseLookupScore acc sm.mem.id = none) →
      ∀ i, fuseLookupScore ((sem.enumFrom n).foldl
          (fun acc p => mapSet acc p.2.mem (rrfContribution rrf_k p.1 p.2.mem)) acc) i
        = match fuseLookupScore acc i with
          | some v => some v
          | none =>
            if i ∈ sem.map (fun sm => sm.mem.id)
            then some (specContribution rrf_k i sem n) else none := by
  intro sem
  induction sem with
  | nil =>
    intro n acc _ _ i
    rcases h : fuseLookupScore acc i with _ | v <;> simp [h]
  | cons sm rest ih =>
    intro n acc hnd hacc i
    rw [List.map_cons, List.nodup_cons] at hnd
    obtain ⟨hnotin, hndrest⟩ := hnd
    have hlook : fuseLookupScore acc sm.mem.id = none := hacc sm (by simp)
    have hany : acc.any (fun p => p.1.id == sm.mem.id) = false :=
      (fuseLookupScore_none_iff acc sm.mem.id).1 hlook
    rw [List.enumFrom_cons, List.foldl_cons, mapSet_no_key acc sm.mem _ hany]
    have hacc' : ∀ sm' ∈ rest,
        fuseLookupScore (acc ++ [(sm.mem, rrfContribution rrf_k n sm.mem)])
          sm'.mem.id = none := by
      intro sm' hm'
      rw [fuseLookupScore_append]
      have h1 : fuseLookupScore acc sm'.mem.id = none := hacc sm' (by simp [hm'])
      have h2 : sm'.mem.id ≠ sm.mem.id := by
        intro he
        exact hnotin (he ▸ List.mem_map_of_mem _ hm')
      rw [h1]
      have hkey : (sm.mem.id == sm'.mem.id) = false := by
        simp only [beq_eq_false_iff_ne, ne_eq]
        exact fun he => h2 he.symm
      simp [fuseLookupScore, List.find?, hkey]
    rw [ih (n + 1) _ hndrest hacc' i]
    by_cases hi : i = sm.mem.id
    · subst hi
      rw [fuseLookupScore_append, hlook]
      have h1 : fuseLookupScore [(sm.mem, rrfContribution rrf_k n sm.mem)] sm.mem.id
          = some (rrfContribution rrf_k n sm.mem) := by
        simp [fuseLookupScore, List.find?]
      rw [h1]
      simp only [Option.none_or]
      simp only [List.map_cons, List.mem_cons, specContribution, if_pos rfl]
      simp
    · rw [fuseLookupScore_append]
      have h2 : fuseLookupScore [(sm.mem, rrfContribution rrf_k n sm.mem)] i
          = none := by
        have hkey : (sm.mem.id == i) = false := by
          simp only [beq_eq_false_iff_ne, ne_eq]
          exact fun he => hi he.symm
        simp [fuseLookupScore, List.find?, hkey]
      rw [h2]
      have h3 : ¬ (sm.mem.id = i) := fun he => hi he.symm
      rcases ha : fuseLookupScore acc i with _ | v
      · simp only [ha, Option.none_or, List.map_cons, List.mem_cons,
          specContribution, if_neg h3]
        simp [hi]
      · simp [ha]

/-- The FTS pass of `rrfFuse`: when the FTS ids are distinct, the pass
adds each row's contribution to the existing entry, or appends a new
entry. -/
theorem rrfFuse_ftsPass (rrf_k : ℚ) :
    ∀ (fts : List ScoredMemory) (n : Nat) (acc : List (Memory × ℚ)),
      (fts.map (fun sm => sm.mem.id)).Nodup →
      ∀ i, fuseLookupScore ((fts.enumFrom n).foldl
          (fun acc p =>
            if acc.any (fun q => q.1.id == p.2.mem.id) then
              mapAdd acc p.2.mem.id (rrfContribution rrf_k p.1 p.2.mem)
            else acc ++ [(p.2.mem, rrfContribution rrf_k p.1 p.2.mem)]) acc) i
        = match fuseLookupScore acc i with
          | some v => some (v + specContribution rrf_k i fts n)
          | none =>
            if i ∈ fts.map (fun sm => sm.mem.id)
            then some (specContribution rrf_k i fts n) else none := by
  intro fts
  induction fts with
  | nil =>
    intro n acc _ i
    rcases h : fuseLookupScore acc i with _ | v <;> simp [h, specContribution]
  | cons sm rest ih =>
    intro n acc hnd i
    rw [List.map_cons, List.nodup_cons] at hnd
    obtain ⟨hnotin, hndrest⟩ := hnd
    rw [List.enumFrom_cons, List.foldl_cons]
    have hspecrest : specContribution rrf_k sm.mem.id rest (n + 1) = 0 :=
      specContribution_not_mem rrf_k _ rest (n + 1) hnotin
    by_cases hin : acc.any (fun q => q.1.id == sm.mem.id) = true
    · rw [if_pos hin]
      rw [ih (n + 1) _ hndrest i]
      rw [fuseLookupScore_mapAdd]
      rcases ha : fuseLookupScore acc i with _ | v
      · have hine : i ≠ sm.mem.id := by
          intro he
          have h0 := (fuseLookupScore_none_iff acc i).1 ha
          rw [he] at h0
          rw [h0] at hin
          exact Bool.false_ne_true hin
        rw [if_neg hine]
        have h3 : ¬ (sm.mem.id = i) := fun he => hine he.symm
        simp only [List.map_cons, List.mem_cons, specContribution, if_neg h3]
        simp [hine]
      · by_cases hie : i = sm.mem.id
        · rw [if_pos hie]
          simp only [Option.map_some', specContribution, if_pos hie.symm]
          rw [hie, hspecrest]
          simp [add_assoc]
        · rw [if_neg hie]
          have h3 : ¬ (sm.mem.id = i) := fun he => hie he.symm
          simp only [specContribution, if_neg h3]
    · rw [if_neg (by simpa using hin)]
      have hlooknone : fuseLookupScore acc sm.mem.id = none :=
        (fuseLookupScore_none_iff acc sm.mem.id).2 (by simpa using hin)
      rw [ih (n + 1) _ hndrest i]
      rw [fuseLookupScore_append]
      by_cases hie : i = sm.mem.id
      · subst hie
        rw [hlooknone]
        have h1 : fuseLookupScore [(sm.mem, rrfContribution rrf_k n sm.mem)]
            sm.mem.id = some (rrfContribution rrf_k n sm.mem) := by
          simp [fuseLookupScore, List.find?]
        rw [h1]
        simp only [Option.none_or, specContribution, if_pos rfl]
        rw [hspecrest]
        simp only [List.map_cons, List.mem_cons, true_or, if_true]
        simp
      · have hkey : (sm.mem.id == i) = false := by
          simp only [beq_eq_false_iff_ne, ne_eq]
          exact fun he => hie he.symm
        have h2 : fuseLookupScore [(sm.mem, rrfContribution rrf_k n sm.mem)] i
            = none := by
          simp [fuseLookupScore, List.find?, hkey]
        rw [h2]
        have h3 : ¬ (sm.mem.id = i) := fun he => hie he.symm
        rcases ha : fuseLookupScore acc i with _ | v
        · simp only [Option.none_or, List.map_cons, List.mem_cons,
            specContribution, if_neg h3]
          simp [hie]
        · simp only [specContribution, if_neg h3]
          rfl

/-- The score held by the fusion map of `searchHybrid` for any id is the
sum of the two rank contributions. -/
theorem rrfFuse_lookup (rrf_k : ℚ) (sem fts : List ScoredMemory)
    (hsem : (sem.map (fun sm => sm.mem.id)).Nodup)
    (hfts : (fts.map (fun sm => sm.mem.id)).Nodup) (i : Nat) :
    fuseLookupScore (rrfFuse rrf_k sem fts) i
    = if i ∈ sem.map (fun sm => sm.mem.id) ∨ i ∈ fts.map (fun sm => sm.mem.id)
      then some (specContribution rrf_k i sem 0 + specContribution rrf_k i fts 0)
      else none := by
  rw [rrfFuse]
  simp only [List.enum_eq_enumFrom]
  rw [rrfFuse_ftsPass rrf_k fts 0 _ hfts i]
  rw [rrfFuse_semPass rrf_k sem 0 [] hsem (fun _ _ => rfl) i]
  rw [fuseLookupScore_nil]
  by_cases hs : i ∈ sem.map (fun sm => sm.mem.id)
  · rw [if_pos hs]
    simp only [if_pos (Or.inl hs)]
  · rw [if_neg hs]
    by_cases hf : i ∈ fts.map (fun sm => sm.mem.id)
    · rw [if_pos hf, if_pos (Or.inr hf)]
      rw [specContribution_not_mem rrf_k i sem 0 hs]
      rw [zero_add]
    · rw [if_neg hf, if_neg (by tauto)]

/-- C6: in the RRF fusion of `searchHybrid`, the memory at 0-indexed rank
`r` of either list contributes `1/(rrf_k + r + 1)` times
`qualityBoost = 1 + 0.1·(importance − 0.5) + 0.05·(strength − 0.5)`; a
memory in both lists receives the sum of both contributions; the fused
entries are stably sorted by score descending, and without reranking the
result is that order truncated to `k`. -/
theorem rrf_fusion_spec (rrf_k : ℚ) (k : Nat) (sem fts : List ScoredMemory)
    (rr : String → String → ℚ) (s : Store) (query : String)
    (hsem : (sem.map (fun sm => sm.mem.id)).Nodup)
    (hfts : (fts.map (fun sm => sm.mem.id)).Nodup) :
    (∀ i, fuseLookupScore (rrfFuse rrf_k sem fts) i
      = if i ∈ sem.map (fun sm => sm.mem.id) ∨ i ∈ fts.map (fun sm => sm.mem.id)
        then some (specContribution rrf_k i sem 0 + specContribution rrf_k i fts 0)
        else none)
    ∧ (hybridSortFused rrf_k sem fts).Perm (rrfFuse rrf_k sem fts)
    ∧ List.Pairwise (fun a b => b.2 ≤ a.2) (hybridSortFused rrf_k sem fts)
    ∧ searchHybridCore rr s query sem fts k rrf_k false 0
        = ((hybridSortFused rrf_k sem fts).take k).map
            (fun p => (⟨p.1, p.2⟩ : ScoredMemory)) := by
  refine ⟨rrfFuse_lookup rrf_k sem fts hsem hfts, ?_, ?_, rfl⟩
  · exact List.perm_insertionSort _ _
  · exact pairwise_insertionSort_desc (fun p : Memory × ℚ => p.2) _

/-- Witness for C6 at one-element semantic and FTS lists. -/
theorem rrf_fusion_spec_witness :
    fuseLookupScore (rrfFuse 60 [⟨memA, 0⟩] [⟨memB, 0⟩]) 1
      = some (specContribution 60 1 [⟨memA, 0⟩] 0
          + specContribution 60 1 [⟨memB, 0⟩] 0)
    ∧ List.Pairwise (fun a b => b.2 ≤ a.2)
        (hybridSortFused 60 [⟨memA, 0⟩] [⟨memB, 0⟩]) := by
  have h := rrf_fusion_spec 60 5 [⟨memA, 0⟩] [⟨memB, 0⟩] (fun _ _ => 0)
    storeEmpty "q" (by decide) (by decide)
  refine ⟨?_, h.2.2.1⟩
  rw [h.1 1, if_pos (by decide)]

/-! ## C5 — merge-on-write under repetition -/

/-- `applyTags` writes only the tag tables. -/
theorem applyTags_memories (s : Store) (i : Nat) (tags : List String) :
    (applyTags s i tags).memories = s.memories := rfl

/-- The per-row memory update performed by the merge branch of
`addMemory`, phrased through the absorbed neighbour row `keep`. -/
def mergeUpdate (embedF : String → List ℚ) (now : Int) (x : AddInput)
    (keep : Memory) (m : Memory) : Memory :=
  let mergedContent := if strIncludes keep.content x.content then keep.content
    else keep.content ++ "\n\n---\n" ++ x.content
  let mergedTitle := if keep.title.length < x.title.length then x.title
    else keep.title
  if m.id == keep.id then
    { m with content := mergedContent, title := mergedTitle,
             embedding := some (embedF (mergedTitle ++ "\n" ++ mergedContent)),
             access_count := m.access_count + 1,
             strength := min (m.strength * (11/10)) 1,
             last_accessed_at := some now }
  else m

/-- Structure of a successful merge loop: the status is `merged`, the
absorbed row is a non-archived memory of the input's type carrying the
returned id, and the memories table is rewritten by `mergeUpdate`. -/
theorem mergeLoop_facts (embedF : String → List ℚ) (s : Store) (now : Int)
    (x : AddInput) :
    ∀ (rows : List ScoredMemory) (s' : Store) (r : AddResult),
      (∀ row ∈ rows, row.mem ∈ s.memories ∧ row.mem.archived = false
        ∧ row.mem.mtype = x.mtype) →
      mergeLoop embedF s now x rows = some (s', r) →
      r.status = .merged
      ∧ ∃ m₀, m₀ ∈ s.memories ∧ m₀.id = r.id ∧ m₀.archived = false
          ∧ m₀.mtype = x.mtype
          ∧ s'.memories = s.memories.map (mergeUpdate embedF now x m₀) := by
  intro rows
  induction rows with
  | nil => intro s' r _ h; exact absurd h (by rw [mergeLoop]; simp)
  | cons row rest ih =>
    intro s' r hrows h
    rw [mergeLoop] at h
    by_cases hsim : x.mergeThreshold ≤ 1 - row.score
    · rw [if_pos hsim] at h
      have h' := Option.some.inj h
      have hs2 := congrArg Prod.fst h'
      have hr := congrArg Prod.snd h'
      simp only at hs2 hr
      have hrow := hrows row (by simp)
      refine ⟨by rw [← hr], row.mem, hrow.1, by rw [← hr], hrow.2.1, hrow.2.2, ?_⟩
      rw [← hs2]
      by_cases ht : x.tags ≠ []
      · rw [if_pos ht, applyTags_memories]
        rfl
      · rw [if_neg ht]
        rfl
    · rw [if_neg hsim] at h
      obtain ⟨hst, hm⟩ := ih s' r (fun row' hm' => hrows row' (by simp [hm'])) h
      exact ⟨hst, hm⟩

/-- C5 amended: after an `add` whose merge adopted the incoming (longer)
title, a subsequent identical `add` hits the exact-duplicate check, so it
returns the same id with status `duplicate` — not `merged` — and leaves
every memory's content and title unchanged. -/
theorem merge_repeat_amended (embedF : String → List ℚ) (vecIndexOk : Bool)
    (vecTopK : List ℚ → Nat → List (Nat × ℚ)) (s : Store) (now now2 : Int)
    (x : AddInput) (s' : Store) (r : AddResult)
    (h1 : addMemory embedF vecIndexOk vecTopK s now x = (s', r))
    (h2 : r.status = .merged)
    (h3 : ∃ m ∈ s'.memories, m.id = r.id ∧ m.title = x.title) :
    (addMemory embedF vecIndexOk vecTopK s' now2 x).2 = ⟨r.id, .duplicate⟩
    ∧ List.Forall₂ (fun m₀ m₁ => m₁.content = m₀.content ∧ m₁.title = m₀.title)
        s'.memories (addMemory embedF vecIndexOk vecTopK s' now2 x).1.memories := by
  classical
  -- Dissect the first call: the exact-duplicate probe found nothing and
  -- the merge loop fired.
  unfold addMemory at h1
  split at h1
  · -- exact duplicate: status would be `duplicate`
    exfalso
    have hr := congrArg Prod.snd h1
    simp only at hr
    rw [← hr] at h2
    exact absurd h2 (by simp)
  · rename_i hfind
    rcases hvec : vecIndexOk with _ | _
    · -- no vector index: the insert branch runs and the status is created
      subst hvec
      exfalso
      have h1' : insertNew embedF false vecTopK s now x
          (embedF (x.title ++ "\n" ++ x.content)) = (s', r) := h1
      have hr : r = (⟨s.nextId, .created⟩ : AddResult) :=
        (congrArg Prod.snd h1').symm
      rw [hr] at h2
      exact AddStatus.noConfusion h2
    · subst hvec
      have h1' : (match mergeLoop embedF s now x (mergeProbeRows vecTopK s x
            (embedF (x.title ++ "\n" ++ x.content))) with
          | some pr => pr
          | none => insertNew embedF true vecTopK s now x
              (embedF (x.title ++ "\n" ++ x.content))) = (s', r) := h1
      rcases hml : mergeLoop embedF s now x (mergeProbeRows vecTopK s x
          (embedF (x.title ++ "\n" ++ x.content))) with _ | pr
      · -- the merge loop found nothing: insert, status created
        rw [hml] at h1'
        exfalso
        have h1'' : insertNew embedF true vecTopK s now x
            (embedF (x.title ++ "\n" ++ x.content)) = (s', r) := h1'
        have hr : r = (⟨s.nextId, .created⟩ : AddResult) :=
          (congrArg Prod.snd h1'').symm
        rw [hr] at h2
        exact AddStatus.noConfusion h2
      · -- the merge loop fired
        rw [hml] at h1'
        have hpr : pr = (s', r) := h1'
        have hmerge : mergeLoop embedF s now x (mergeProbeRows vecTopK s x
            (embedF (x.title ++ "\n" ++ x.content))) = some (s', r) :=
          hml.trans (congrArg some hpr)
        have hrows : ∀ row ∈ mergeProbeRows vecTopK s x
            (embedF (x.title ++ "\n" ++ x.content)),
            row.mem ∈ s.memories ∧ row.mem.archived = false
              ∧ row.mem.mtype = x.mtype := by
          intro row hr
          rw [mergeProbeRows, List.mem_filterMap] at hr
          obtain ⟨p, _, hp⟩ := hr
          rcases hf : findMem s p.1 with _ | m
          · rw [hf] at hp; exact absurd hp (by simp)
          · rw [hf] at hp
            have hf' : (if !m.archived && m.mtype == x.mtype then
                some (⟨m, p.2⟩ : ScoredMemory) else none) = some row := hp
            by_cases hc : (!m.archived && m.mtype == x.mtype) = true
            · rw [if_pos hc] at hf'
              rw [Bool.and_eq_true] at hc
              have hmm : row.mem = m := by cases hf'; rfl
              have hmem : m ∈ s.memories := List.mem_of_find?_eq_some hf
              refine ⟨hmm ▸ hmem, ?_, ?_⟩
              · rw [hmm]
                simpa using hc.1
              · rw [hmm]
                simpa using hc.2
            · rw [if_neg hc] at hf'
              exact absurd hf' (by simp)
        obtain ⟨hst, m₀, hm₀mem, hm₀id, hm₀arch, hm₀type, hmap⟩ :=
          mergeLoop_facts embedF s now x _ s' r hrows hmerge
        -- The merged title equals the incoming title (hypothesis h3).
        obtain ⟨m, hmmem, hmid, hmtitle⟩ := h3
        rw [hmap] at hmmem
        rw [List.mem_map] at hmmem
        obtain ⟨mpre, hmpre, hmeq⟩ := hmmem
        have hT : (if m₀.title.length < x.title.length then x.title
            else m₀.title) = x.title := by
          by_cases hpre : (mpre.id == m₀.id) = true
          · rw [← hmeq] at hmtitle
            rw [mergeUpdate] at hmtitle
            rw [if_pos hpre] at hmtitle
            exact hmtitle
          · rw [← hmeq] at hmid
            rw [mergeUpdate] at hmid
            rw [if_neg hpre] at hmid
            exfalso
            apply hpre
            rw [beq_iff_eq, hmid, hm₀id]
        -- The updated image of the absorbed row satisfies the duplicate
        -- probe of the second call.
        have hdup : mergeUpdate embedF now x m₀ m₀ ∈ s'.memories := by
          rw [hmap]
          exact List.mem_map_of_mem _ hm₀mem
        have hpdup : (fun mm => mm.mtype == x.mtype && mm.title == x.title
            && !mm.archived) (mergeUpdate embedF now x m₀ m₀) = true := by
          rw [mergeUpdate, if_pos (by simp)]
          simp [hm₀type, hm₀arch, hT]
        -- The probe of the second call finds a row, and any row it can
        -- find carries the merged id.
        have hsome : (s'.memories.find? (fun mm => mm.mtype == x.mtype
            && mm.title == x.title && !mm.archived)).isSome := by
          rw [List.find?_isSome]
          exact ⟨_, hdup, hpdup⟩
        obtain ⟨estar, hfind2⟩ := Option.isSome_iff_exists.1 hsome
        have hpe : (estar.mtype == x.mtype && estar.title == x.title
            && !estar.archived) = true := by
          have hq := List.find?_some hfind2
          exact hq
        have hemem : estar ∈ s'.memories := List.mem_of_find?_eq_some hfind2
        have heid : estar.id = r.id := by
          rw [hmap] at hemem
          rw [List.mem_map] at hemem
          obtain ⟨epre, hepre, heeq⟩ := hemem
          by_cases hb : (epre.id == m₀.id) = true
          · rw [← heeq, mergeUpdate, if_pos hb]
            show epre.id = r.id
            rw [← hm₀id]
            simpa using hb
          · rw [mergeUpdate, if_neg hb] at heeq
            rw [← heeq] at hpe
            exact absurd hpe (by
              have := List.find?_eq_none.1 hfind epre hepre
              simpa using this)
        -- Evaluate the second call on the found duplicate.
        have hcall2 : addMemory embedF true vecTopK s' now2 x
            = ({ s' with memories := s'.memories.map (fun m =>
                if m.id == estar.id then
                  { m with access_count := m.access_count + 1,
                           last_accessed_at := some now2 }
                else m) },
               ⟨estar.id, .duplicate⟩) := by
          unfold addMemory
          rw [hfind2]
          rfl
        rw [hcall2]
        refine ⟨by rw [heid], ?_⟩
        exact forall₂_map_self _ _ _ (fun m _ => by
          by_cases hb : (m.id == estar.id) = true
          · rw [if_pos hb]
            exact ⟨rfl, rfl⟩
          · rw [if_neg hb]
            exact ⟨rfl, rfl⟩)

/-- Counterexample to C5 as stated: the first call merges into memory 1
and adopts the longer incoming title, so the identical second call is an
exact duplicate — its status is `duplicate`, not `merged`. -/
theorem merge_repeat_counterexample :
    (addMemory (fun _ => [(1 : ℚ)]) true (fun _ _ => [(1, 0)]) storeLib 0
        inputLib).2 = ⟨1, .merged⟩
    ∧ (addMemory (fun _ => [(1 : ℚ)]) true (fun _ _ => [(1, 0)])
        (addMemory (fun _ => [(1 : ℚ)]) true (fun _ _ => [(1, 0)]) storeLib 0
          inputLib).1 1 inputLib).2 = ⟨1, .duplicate⟩ :=
  ⟨of_decide_eq_true (by with_unfolding_all rfl),
   of_decide_eq_true (by with_unfolding_all rfl)⟩

/-- Witness for the amended C5 on the concrete merge scenario. -/
theorem merge_repeat_amended_witness :
    (addMemory (fun _ => [(1 : ℚ)]) true (fun _ _ => [(1, 0)])
        (addMemory (fun _ => [(1 : ℚ)]) true (fun _ _ => [(1, 0)]) storeLib 0
          inputLib).1 1 inputLib).2
      = ⟨(addMemory (fun _ => [(1 : ℚ)]) true (fun _ _ => [(1, 0)]) storeLib 0
          inputLib).2.id, .duplicate⟩
    ∧ List.Forall₂ (fun m₀ m₁ => m₁.content = m₀.content ∧ m₁.title = m₀.title)
        (addMemory (fun _ => [(1 : ℚ)]) true (fun _ _ => [(1, 0)]) storeLib 0
          inputLib).1.memories
        (addMemory (fun _ => [(1 : ℚ)]) true (fun _ _ => [(1, 0)])
          (addMemory (fun _ => [(1 : ℚ)]) true (fun _ _ => [(1, 0)]) storeLib 0
            inputLib).1 1 inputLib).1.memories :=
  merge_repeat_amended (fun _ => [(1 : ℚ)]) true (fun _ _ => [(1, 0)]) storeLib
    0 1 inputLib _ _ rfl
    (of_decide_eq_true (by with_unfolding_all rfl))
    (of_decide_eq_true (by with_unfolding_all rfl))

/-! ## C3 — consolidation idempotence -/

theorem strongEnough_congr (θ : ℚ) (s s' : Store) (hm : s'.memories = s.memories)
    (ht : s'.memTags = s.memTags) (h : strongEnough θ s) : strongEnough θ s' := by
  intro m hmem ha hp
  refine h m (by rw [← hm]; exact hmem) ha ?_
  rw [isPermanent] at hp
  rw [ht] at hp
  rw [isPermanent]
  exact hp

theorem stepPrune_strong (θ : ℚ) (s : Store) :
    strongEnough θ (stepPrune s θ false).1
    ∧ (stepPrune s θ false).1.memTags = s.memTags
    ∧ (nonnegStrength s → nonnegStrength (stepPrune s θ false).1) := by
  refine ⟨?_, rfl, ?_⟩
  · intro m' hm' ha hp
    have hm'2 : m' ∈ s.memories.map (fun m =>
        if pruneHits s θ m then { m with archived := true } else m) := hm'
    rw [List.mem_map] at hm'2
    obtain ⟨m, hm, hmeq⟩ := hm'2
    by_cases hph : pruneHits s θ m = true
    · rw [if_pos hph] at hmeq
      rw [← hmeq] at ha
      exact absurd ha (by simp)
    · rw [if_neg hph] at hmeq
      subst hmeq
      have hp' : isPermanent s m.id = false := hp
      have hph' : ¬ (m.strength < θ) := by
        intro hlt
        apply hph
        rw [pruneHits, ha, hp']
        simp [hlt]
      exact not_lt.1 hph'
  · intro hn m' hm'
    have hm'2 : m' ∈ s.memories.map (fun m =>
        if pruneHits s θ m then { m with archived := true } else m) := hm'
    rw [List.mem_map] at hm'2
    obtain ⟨m, hm, hmeq⟩ := hm'2
    by_cases hph : pruneHits s θ m = true
    · rw [if_pos hph] at hmeq
      rw [← hmeq]
      exact hn m hm
    · rw [if_neg hph] at hmeq
      rw [← hmeq]
      exact hn m hm

theorem stepDecay_nonneg (s : Store) (rate : ℚ) (lastRunAt : Option Int) (now : Int)
    (hrate : 0 ≤ rate) (hn : nonnegStrength s) :
    nonnegStrength (stepDecay s rate false lastRunAt now).1
    ∧ (stepDecay s rate false lastRunAt now).1.memTags = s.memTags := by
  refine ⟨?_, rfl⟩
  intro m' hm'
  have hm'2 : m' ∈ s.memories.map (fun m =>
      if decayHits s m then
        { m with strength := m.strength * rate ^ decayDays lastRunAt now m }
      else m) := hm'
  rw [List.mem_map] at hm'2
  obtain ⟨m, hm, hmeq⟩ := hm'2
  by_cases hdh : decayHits s m = true
  · rw [if_pos hdh] at hmeq
    rw [← hmeq]
    exact mul_nonneg (hn m hm) (pow_nonneg hrate _)
  · rw [if_neg hdh] at hmeq
    rw [← hmeq]
    exact hn m hm

theorem stepBoost_strong (θ f : ℚ) (minA : Nat) (s : Store)
    (hθ1 : θ ≤ 1) (hf : 1 ≤ f) (hs : strongEnough θ s) (hn : nonnegStrength s) :
    strongEnough θ (stepBoost s f minA false).1
    ∧ nonnegStrength (stepBoost s f minA false).1
    ∧ (stepBoost s f minA false).1.memTags = s.memTags := by
  refine ⟨?_, ?_, rfl⟩
  · intro m' hm' ha hp
    have hm'2 : m' ∈ s.memories.map (fun m =>
        if boostHits minA m then { m with strength := min 1 (m.strength * f) }
        else m) := hm'
    rw [List.mem_map] at hm'2
    obtain ⟨m, hm, hmeq⟩ := hm'2
    by_cases hbh : boostHits minA m = true
    · rw [if_pos hbh] at hmeq
      rw [← hmeq] at ha hp ⊢
      exact le_min hθ1 (le_trans (hs m hm ha hp) (le_mul_of_one_le_right (hn m hm) hf))
    · rw [if_neg hbh] at hmeq
      rw [← hmeq] at ha hp ⊢
      exact hs m hm ha hp
  · intro m' hm'
    have hm'2 : m' ∈ s.memories.map (fun m =>
        if boostHits minA m then { m with strength := min 1 (m.strength * f) }
        else m) := hm'
    rw [List.mem_map] at hm'2
    obtain ⟨m, hm, hmeq⟩ := hm'2
    by_cases hbh : boostHits minA m = true
    · rw [if_pos hbh] at hmeq
      rw [← hmeq]
      exact le_min (by norm_num) (mul_nonneg (hn m hm) (le_trans zero_le_one hf))
    · rw [if_neg hbh] at hmeq
      rw [← hmeq]
      exact hn m hm

theorem boostGate_cases (s : Store) (opts : ConsolidationOptions) (now : Int)
    (m1 : Store) :
    boostGate s opts now m1
        = stepBoost m1 opts.boostFactor opts.boostMinAccess opts.dryRun
    ∨ boostGate s opts now m1 = (m1, 0) := by
  rw [boostGate]
  rcases hl : s.lastConsolidationAt.map (fun t => now - t) with _ | ds
  · exact Or.inl rfl
  · by_cases hds : (1 : ℤ) ≤ ds
    · exact Or.inl (if_pos hds)
    · exact Or.inr (if_neg hds)

theorem boostGate_cooldown (s : Store) (opts : ConsolidationOptions) (now : Int)
    (m1 : Store) (t : Int) (hl : s.lastConsolidationAt = some t)
    (hlt : ¬ (1 : ℤ) ≤ now - t) : boostGate s opts now m1 = (m1, 0) := by
  rw [boostGate, hl]
  show (if (1 : ℤ) ≤ now - t then
      stepBoost m1 opts.boostFactor opts.boostMinAccess opts.dryRun
    else (m1, 0)) = (m1, 0)
  exact if_neg hlt

theorem boostGate_strong (θ : ℚ) (s : Store) (opts : ConsolidationOptions) (now : Int)
    (m1 : Store) (hdry : opts.dryRun = false) (hθ1 : θ ≤ 1)
    (hf : 1 ≤ opts.boostFactor) (hs : strongEnough θ m1) (hn : nonnegStrength m1) :
    strongEnough θ (boostGate s opts now m1).1
    ∧ nonnegStrength (boostGate s opts now m1).1
    ∧ (boostGate s opts now m1).1.memTags = m1.memTags := by
  rcases boostGate_cases s opts now m1 with h | h
  · rw [h, hdry]
    exact stepBoost_strong θ opts.boostFactor opts.boostMinAccess m1 hθ1 hf hs hn
  · rw [h]
    exact ⟨hs, hn, rfl⟩

theorem boostGate_dry (s : Store) (opts : ConsolidationOptions) (now : Int)
    (m1 : Store) (hdry : opts.dryRun = true) : (boostGate s opts now m1).1 = m1 := by
  rcases boostGate_cases s opts now m1 with h | h
  · rw [h, hdry]
    rfl
  · rw [h]

theorem runConsolidation_counts (embedF : String → List ℚ) (vecIndexOk : Bool)
    (vecTopK : List ℚ → Nat → List (Nat × ℚ)) (simFn : List ℚ → List ℚ → ℚ)
    (s : Store) (opts : ConsolidationOptions) (now : Int) :
    (runConsolidation embedF vecIndexOk vecTopK simFn s opts now).2
      = ⟨(stepDecay s opts.decayRate opts.dryRun s.lastConsolidationAt now).2,
         (stepPrune (stepDecay s opts.decayRate opts.dryRun s.lastConsolidationAt now).1
            opts.pruneThreshold opts.dryRun).2,
         (stepMerge embedF vecIndexOk vecTopK simFn
            (stepPrune (stepDecay s opts.decayRate opts.dryRun s.lastConsolidationAt now).1
              opts.pruneThreshold opts.dryRun).1 opts.mergeThreshold opts.dryRun).2,
         (boostGate s opts now
            (stepMerge embedF vecIndexOk vecTopK simFn
              (stepPrune (stepDecay s opts.decayRate opts.dryRun s.lastConsolidationAt now).1
                opts.pruneThreshold opts.dryRun).1 opts.mergeThreshold opts.dryRun).1).2⟩ :=
  rfl

theorem runConsolidation_store (embedF : String → List ℚ) (vecIndexOk : Bool)
    (vecTopK : List ℚ → Nat → List (Nat × ℚ)) (simFn : List ℚ → List ℚ → ℚ)
    (s : Store) (opts : ConsolidationOptions) (now : Int)
    (hdry : opts.dryRun = false) :
    (runConsolidation embedF vecIndexOk vecTopK simFn s opts now).1
      = { (boostGate s opts now
            (stepMerge embedF vecIndexOk vecTopK simFn
              (stepPrune (stepDecay s opts.decayRate false s.lastConsolidationAt now).1
                opts.pruneThreshold false).1 opts.mergeThreshold false).1).1
          with lastConsolidationAt := some now } := by
  rw [runConsolidation, hdry]
  rfl

theorem runConsolidation_dry (embedF : String → List ℚ) (vecIndexOk : Bool)
    (vecTopK : List ℚ → Nat → List (Nat × ℚ)) (simFn : List ℚ → List ℚ → ℚ)
    (s : Store) (opts : ConsolidationOptions) (now : Int)
    (hdry : opts.dryRun = true) :
    (runConsolidation embedF vecIndexOk vecTopK simFn s opts now).1 = s := by
  have h := boostGate_dry s opts now s hdry
  rw [runConsolidation, hdry]
  exact h

theorem mergeRows_sound (s : Store) : ∀ x ∈ mergeRows s, snapSound s x := by
  intro x hx
  rw [mergeRows] at hx
  rw [List.mem_insertionSort] at hx
  rw [List.mem_filterMap] at hx
  obtain ⟨m, hm, hmx⟩ := hx
  rcases he : m.embedding with _ | e
  · rw [he] at hmx
    exact absurd hmx (by simp)
  · rw [he] at hmx
    by_cases ha : (!m.archived) = true
    · have hmx' : (if !m.archived then
          some (⟨m.id, m.mtype, m.title, m.content, e, m.importance, m.strength,
                 m.access_count⟩ : MergeSnap) else none) = some x := hmx
      rw [if_pos ha] at hmx'
      have hx' := Option.some.inj hmx'
      refine ⟨m, hm, by simpa using ha, ?_, ?_⟩
      · rw [← hx']
      · rw [← hx']
    · have hmx' : (if !m.archived then
          some (⟨m.id, m.mtype, m.title, m.content, e, m.importance, m.strength,
                 m.access_count⟩ : MergeSnap) else none) = some x := hmx
      rw [if_neg ha] at hmx'
      cases hmx'

theorem buildMemMapGo_subset :
    ∀ (l acc : List MergeSnap) (x : MergeSnap),
      x ∈ l.foldl (fun acc r =>
        if acc.any (fun y => y.id == r.id) then
          acc.map (fun y => if y.id == r.id then r else y)
        else acc ++ [r]) acc → x ∈ acc ∨ x ∈ l := by
  intro l
  induction l with
  | nil => intro acc x hx; exact Or.inl hx
  | cons r rest ih =>
    intro acc x hx
    rw [List.foldl_cons] at hx
    rcases ih _ x hx with h | h
    · by_cases hc : (acc.any (fun y => y.id == r.id)) = true
      · rw [if_pos hc] at h
        rw [List.mem_map] at h
        obtain ⟨y, hy, hyx⟩ := h
        by_cases hb : (y.id == r.id) = true
        · rw [if_pos hb] at hyx
          rw [← hyx]
          exact Or.inr (List.mem_cons_self r rest)
        · rw [if_neg hb] at hyx
          rw [← hyx]
          exact Or.inl hy
      · rw [if_neg hc] at h
        rcases List.mem_append.1 h with h' | h'
        · exact Or.inl h'
        · rw [List.mem_singleton] at h'
          rw [h']
          exact Or.inr (List.mem_cons_self r rest)
    · exact Or.inr (List.mem_cons_of_mem r h)

theorem buildMemMap_subset (rows : List MergeSnap) :
    ∀ x ∈ buildMemMap rows, x ∈ rows := by
  intro x hx
  rw [buildMemMap] at hx
  rcases buildMemMapGo_subset rows [] x hx with h | h
  · exact absurd h (List.not_mem_nil x)
  · exact h

theorem bfInner_cands (simFn : List ℚ → List ℚ → ℚ) (θ : ℚ) (P : MergeSnap → Prop)
    (mi : MergeSnap) (hmi : P mi) :
    ∀ (l : List MergeSnap) (tr : List Nat) (dups : List MergeCandidate),
      (∀ y ∈ l, P y) → (∀ c ∈ dups, P c.keep ∧ P c.remove) →
      ∀ c ∈ (bfInner simFn θ mi l tr dups).2, P c.keep ∧ P c.remove := by
  intro l
  induction l with
  | nil =>
    intro tr dups _ hd c hc
    rw [bfInner] at hc
    exact hd c hc
  | cons mj rest ih =>
    intro tr dups hl hd c hc
    have htail : ∀ y ∈ rest, P y := fun y hy => hl y (List.mem_cons_of_mem _ hy)
    have hc2 : c ∈ (if tr.contains mj.id then bfInner simFn θ mi rest tr dups
        else if mi.mtype ≠ mj.mtype then bfInner simFn θ mi rest tr dups
        else if θ ≤ simFn mi.embedding mj.embedding then
          if bfScore mj ≤ bfScore mi then
            bfInner simFn θ mi rest (tr ++ [mj.id])
              (dups ++ [⟨mi, mj, simFn mi.embedding mj.embedding⟩])
          else
            bfInner simFn θ mi rest (tr ++ [mi.id])
              (dups ++ [⟨mj, mi, simFn mi.embedding mj.embedding⟩])
        else bfInner simFn θ mi rest tr dups).2 := hc
    by_cases h1 : (tr.contains mj.id) = true
    · rw [if_pos h1] at hc2
      exact ih _ _ htail hd c hc2
    · rw [if_neg h1] at hc2
      by_cases h2 : mi.mtype ≠ mj.mtype
      · rw [if_pos h2] at hc2
        exact ih _ _ htail hd c hc2
      · rw [if_neg h2] at hc2
        by_cases h3 : θ ≤ simFn mi.embedding mj.embedding
        · rw [if_pos h3] at hc2
          by_cases h4 : bfScore mj ≤ bfScore mi
          · rw [if_pos h4] at hc2
            refine ih _ _ htail ?_ c hc2
            intro c' hc'
            rcases List.mem_append.1 hc' with h | h
            · exact hd c' h
            · rw [List.mem_singleton] at h
              rw [h]
              exact ⟨hmi, hl mj (List.mem_cons_self _ _)⟩
          · rw [if_neg h4] at hc2
            refine ih _ _ htail ?_ c hc2
            intro c' hc'
            rcases List.mem_append.1 hc' with h | h
            · exact hd c' h
            · rw [List.mem_singleton] at h
              rw [h]
              exact ⟨hl mj (List.mem_cons_self _ _), hmi⟩
        · rw [if_neg h3] at hc2
          exact ih _ _ htail hd c hc2

theorem bfOuter_cands (simFn : List ℚ → List ℚ → ℚ) (θ : ℚ) (P : MergeSnap → Prop) :
    ∀ (l : List MergeSnap) (tr : List Nat) (dups : List MergeCandidate),
      (∀ y ∈ l, P y) → (∀ c ∈ dups, P c.keep ∧ P c.remove) →
      ∀ c ∈ bfOuter simFn θ l tr dups, P c.keep ∧ P c.remove := by
  intro l
  induction l with
  | nil =>
    intro tr dups _ hd c hc
    rw [bfOuter] at hc
    exact hd c hc
  | cons mi rest ih =>
    intro tr dups hl hd c hc
    rw [bfOuter] at hc
    split at hc
    · exact ih _ _ (fun y hy => hl y (List.mem_cons_of_mem _ hy)) hd c hc
    · exact ih _ _ (fun y hy => hl y (List.mem_cons_of_mem _ hy))
        (bfInner_cands simFn θ P mi (hl mi (List.mem_cons_self _ _)) rest tr dups
          (fun y hy => hl y (List.mem_cons_of_mem _ hy)) hd) c hc

theorem daInner_cands (θ : ℚ) (memMap : List MergeSnap) (P : MergeSnap → Prop)
    (hmap : ∀ y ∈ memMap, P y) (mi : MergeSnap) (hmi : P mi) :
    ∀ (ns : List (Nat × ℚ)) (tr : List Nat) (dups : List MergeCandidate),
      (∀ c ∈ dups, P c.keep ∧ P c.remove) →
      ∀ c ∈ (daInner θ memMap mi ns tr dups).2, P c.keep ∧ P c.remove := by
  intro ns
  induction ns with
  | nil =>
    intro tr dups hd c hc
    rw [daInner] at hc
    exact hd c hc
  | cons p rest ih =>
    rcases p with ⟨nid, dist⟩
    intro tr dups hd c hc
    have hc2 : c ∈ (if tr.contains nid then daInner θ memMap mi rest tr dups
        else if 1 - dist < θ then daInner θ memMap mi rest tr dups
        else match memMap.find? (fun x => x.id == nid) with
          | none => daInner θ memMap mi rest tr dups
          | some other =>
            if bfScore other ≤ bfScore mi then
              daInner θ memMap mi rest (tr ++ [nid]) (dups ++ [⟨mi, other, 1 - dist⟩])
            else (tr ++ [mi.id], dups ++ [⟨other, mi, 1 - dist⟩])).2 := hc
    by_cases h1 : (tr.contains nid) = true
    · rw [if_pos h1] at hc2
      exact ih _ _ hd c hc2
    · rw [if_neg h1] at hc2
      by_cases h2 : 1 - dist < θ
      · rw [if_pos h2] at hc2
        exact ih _ _ hd c hc2
      · rw [if_neg h2] at hc2
        rcases hfq : memMap.find? (fun x => x.id == nid) with _ | other
        · rw [hfq] at hc2
          exact ih _ _ hd c hc2
        · rw [hfq] at hc2
          have hc3 : c ∈ (if bfScore other ≤ bfScore mi then
              daInner θ memMap mi rest (tr ++ [nid]) (dups ++ [⟨mi, other, 1 - dist⟩])
            else (tr ++ [mi.id], dups ++ [⟨other, mi, 1 - dist⟩])).2 := hc2
          by_cases h3 : bfScore other ≤ bfScore mi
          · rw [if_pos h3] at hc3
            refine ih _ _ ?_ c hc3
            intro c' hc'
            rcases List.mem_append.1 hc' with h | h
            · exact hd c' h
            · rw [List.mem_singleton] at h
              rw [h]
              exact ⟨hmi, hmap other (List.mem_of_find?_eq_some hfq)⟩
          · rw [if_neg h3] at hc3
            have hc4 : c ∈ dups ++ [(⟨other, mi, 1 - dist⟩ : MergeCandidate)] := hc3
            rcases List.mem_append.1 hc4 with h | h
            · exact hd c h
            · rw [List.mem_singleton] at h
              rw [h]
              exact ⟨hmap other (List.mem_of_find?_eq_some hfq), hmi⟩

theorem daOuter_cands (vecTopK : List ℚ → Nat → List (Nat × ℚ)) (s : Store) (θ : ℚ)
    (memMap : List MergeSnap) (P : MergeSnap → Prop) (hmap : ∀ y ∈ memMap, P y) :
    ∀ (l : List MergeSnap) (tr : List Nat) (dups : List MergeCandidate),
      (∀ y ∈ l, P y) → (∀ c ∈ dups, P c.keep ∧ P c.remove) →
      ∀ c ∈ daOuter vecTopK s θ memMap l tr dups, P c.keep ∧ P c.remove := by
  intro l
  induction l with
  | nil =>
    intro tr dups _ hd c hc
    rw [daOuter] at hc
    exact hd c hc
  | cons mi rest ih =>
    intro tr dups hl hd c hc
    rw [daOuter] at hc
    split at hc
    · exact ih _ _ (fun y hy => hl y (List.mem_cons_of_mem _ hy)) hd c hc
    · exact ih _ _ (fun y hy => hl y (List.mem_cons_of_mem _ hy))
        (daInner_cands θ memMap P hmap mi (hl mi (List.mem_cons_self _ _))
          (daNeighbors vecTopK s mi 4) tr dups hd) c hc

theorem mergeCands_sound (embedF : String → List ℚ) (vecIndexOk : Bool)
    (vecTopK : List ℚ → Nat → List (Nat × ℚ)) (simFn : List ℚ → List ℚ → ℚ)
    (s : Store) (θ : ℚ) :
    ∀ c ∈ (if vecIndexOk then findMergeCandidatesDiskANN vecTopK s θ
           else findMergeCandidatesBruteForce simFn θ s),
      snapSound s c.keep ∧ snapSound s c.remove := by
  rcases vecIndexOk with _ | _
  · intro c hc
    have hc' : c ∈ (if (mergeRows s).length < 2 then ([] : List MergeCandidate)
        else bfOuter simFn θ (mergeRows s) [] []) := hc
    split at hc'
    · exact absurd hc' (List.not_mem_nil c)
    · exact bfOuter_cands simFn θ (snapSound s) (mergeRows s) [] []
        (fun y hy => mergeRows_sound s y hy)
        (fun c' h => absurd h (List.not_mem_nil c')) c hc'
  · intro c hc
    have hc' : c ∈ (if (mergeRows s).length < 2 then ([] : List MergeCandidate)
        else daOuter vecTopK s θ (buildMemMap (mergeRows s))
          (buildMemMap (mergeRows s)) [] []) := hc
    split at hc'
    · exact absurd hc' (List.not_mem_nil c)
    · exact daOuter_cands vecTopK s θ (buildMemMap (mergeRows s)) (snapSound s)
        (fun y hy => mergeRows_sound s y (buildMemMap_subset _ y hy))
        (buildMemMap (mergeRows s)) [] []
        (fun y hy => mergeRows_sound s y (buildMemMap_subset _ y hy))
        (fun c' h => absurd h (List.not_mem_nil c')) c hc'

theorem mergeUpdKeep_point (C : String) (E : List ℚ) (I S : ℚ) (A kid : Nat)
    (m : Memory) :
    (mergeUpdKeep C E I S A kid m).id = m.id
    ∧ ((mergeUpdKeep C E I S A kid m).strength = m.strength
        ∨ ((mergeUpdKeep C E I S A kid m).strength = S ∧ m.id = kid))
    ∧ (mergeUpdKeep C E I S A kid m).archived = m.archived := by
  rw [mergeUpdKeep]
  by_cases h1 : (m.id == kid) = true
  · rw [if_pos h1]
    exact ⟨rfl, Or.inr ⟨rfl, by simpa using h1⟩, rfl⟩
  · rw [if_neg h1]
    exact ⟨rfl, Or.inl rfl, rfl⟩

theorem mergeUpdRemove_point (rid : Nat) (m : Memory) :
    (mergeUpdRemove rid m).id = m.id
    ∧ (mergeUpdRemove rid m).strength = m.strength
    ∧ ((mergeUpdRemove rid m).archived = m.archived
        ∨ (mergeUpdRemove rid m).archived = true) := by
  rw [mergeUpdRemove]
  by_cases h2 : (m.id == rid) = true
  · rw [if_pos h2]
    exact ⟨rfl, rfl, Or.inr rfl⟩
  · rw [if_neg h2]
    exact ⟨rfl, rfl, Or.inl rfl⟩

theorem mergeUpd_point (C : String) (E : List ℚ) (I S : ℚ) (A kid rid : Nat)
    (m : Memory) :
    (mergeUpdRemove rid (mergeUpdKeep C E I S A kid m)).id = m.id
    ∧ ((mergeUpdRemove rid (mergeUpdKeep C E I S A kid m)).strength = m.strength
        ∨ ((mergeUpdRemove rid (mergeUpdKeep C E I S A kid m)).strength = S
            ∧ m.id = kid))
    ∧ ((mergeUpdRemove rid (mergeUpdKeep C E I S A kid m)).archived = m.archived
        ∨ (mergeUpdRemove rid (mergeUpdKeep C E I S A kid m)).archived = true) := by
  obtain ⟨hkid, hkstr, hkarch⟩ := mergeUpdKeep_point C E I S A kid m
  obtain ⟨hrid, hrstr, hrarch⟩ := mergeUpdRemove_point rid (mergeUpdKeep C E I S A kid m)
  refine ⟨hrid.trans hkid, ?_, ?_⟩
  · rw [hrstr]
    exact hkstr
  · rcases hrarch with h | h
    · rw [h, hkarch]
      exact Or.inl rfl
    · exact Or.inr h

theorem executeMerge_memories (embedF : String → List ℚ) (st : Store)
    (dup : MergeCandidate) :
    (executeMerge embedF st dup).memories
      = st.memories.map (mergeUpdRemove dup.remove.id
          ∘ mergeUpdKeep (dup.keep.content ++ "\n\n[Merged from: " ++ dup.remove.title
              ++ "]\n" ++ dup.remove.content)
            (embedF (dup.keep.title ++ "\n" ++ (dup.keep.content ++ "\n\n[Merged from: "
              ++ dup.remove.title ++ "]\n" ++ dup.remove.content)))
            (max dup.keep.importance dup.remove.importance)
            (max dup.keep.strength dup.remove.strength)
            dup.remove.accessCount dup.keep.id) :=
  List.map_map _ _ _

theorem executeMerge_memTags (embedF : String → List ℚ) (st : Store)
    (dup : MergeCandidate) : (executeMerge embedF st dup).memTags = st.memTags := rfl

theorem executeMerge_mem (embedF : String → List ℚ) (st : Store) (dup : MergeCandidate) :
    ∀ m' ∈ (executeMerge embedF st dup).memories,
      ∃ m ∈ st.memories, m'.id = m.id
        ∧ (m'.strength = m.strength
            ∨ (m'.strength = max dup.keep.strength dup.remove.strength
                ∧ m.id = dup.keep.id))
        ∧ (m'.archived = m.archived ∨ m'.archived = true) := by
  intro m' hm'
  rw [executeMerge_memories, List.mem_map] at hm'
  obtain ⟨m, hm, hmeq⟩ := hm'
  refine ⟨m, hm, ?_⟩
  rw [← hmeq]
  exact mergeUpd_point _ _ _ _ _ _ _ m

theorem mergeFold_strong (embedF : String → List ℚ) (θ : ℚ) (sp : Store)
    (hsp : strongEnough θ sp) (hnn : nonnegStrength sp) :
    ∀ (cands : List MergeCandidate) (st : Store),
      (∀ c ∈ cands, snapSound sp c.keep ∧ snapSound sp c.remove) →
      st.memTags = sp.memTags →
      strongEnough θ st → nonnegStrength st →
      (cands.foldl (fun st dup => executeMerge embedF st dup) st).memTags = sp.memTags
      ∧ strongEnough θ (cands.foldl (fun st dup => executeMerge embedF st dup) st)
      ∧ nonnegStrength (cands.foldl (fun st dup => executeMerge embedF st dup) st) := by
  intro cands
  induction cands with
  | nil => intro st _ ht hs hn; exact ⟨ht, hs, hn⟩
  | cons dup rest ih =>
    intro st hc ht hs hn
    rw [List.foldl_cons]
    refine ih (executeMerge embedF st dup)
      (fun c h => hc c (List.mem_cons_of_mem _ h)) ?_ ?_ ?_
    · rw [executeMerge_memTags, ht]
    · intro m' hm' ha hp
      obtain ⟨m, hm, hid, hstr, harch⟩ := executeMerge_mem embedF st dup m' hm'
      have hp' : isPermanent st m.id = false := by
        rw [isPermanent] at hp
        rw [executeMerge_memTags] at hp
        rw [isPermanent, ← hid]
        exact hp
      rcases harch with hA | hA
      · have ha' : m.archived = false := by rw [← hA]; exact ha
        rcases hstr with hS | ⟨hS, hkid⟩
        · rw [hS]
          exact hs m hm ha' hp'
        · rw [hS]
          obtain ⟨hck, _⟩ := hc dup (List.mem_cons_self _ _)
          obtain ⟨mk, hmk, hmka, hmkid, hmks⟩ := hck
          have hpk : isPermanent sp mk.id = false := by
            rw [isPermanent, ht] at hp'
            rw [isPermanent]
            rw [hmkid, ← hkid]
            exact hp'
          have hks : θ ≤ dup.keep.strength := by
            rw [← hmks]
            exact hsp mk hmk hmka hpk
          exact le_trans hks (le_max_left _ _)
      · rw [hA] at ha
        cases ha
    · intro m' hm'
      obtain ⟨m, hm, _, hstr, _⟩ := executeMerge_mem embedF st dup m' hm'
      rcases hstr with hS | ⟨hS, _⟩
      · rw [hS]
        exact hn m hm
      · rw [hS]
        obtain ⟨hck, _⟩ := hc dup (List.mem_cons_self _ _)
        obtain ⟨mk, hmk, _, _, hmks⟩ := hck
        exact le_trans (hmks ▸ hnn mk hmk) (le_max_left _ _)

theorem decayDays_now (now : Int) (m : Memory) : decayDays (some now) now m = 0 := by
  rw [decayDays]
  simp

theorem stepDecay_after (s1 : Store) (rate : ℚ) (now : Int)
    (hlast : s1.lastConsolidationAt = some now) :
    (stepDecay s1 rate false s1.lastConsolidationAt now).1 = s1 := by
  show ({ s1 with memories := s1.memories.map (fun m =>
      if decayHits s1 m then
        { m with strength := m.strength * rate ^ decayDays s1.lastConsolidationAt now m }
      else m) } : Store) = s1
  have h1 : s1.memories.map (fun m =>
      if decayHits s1 m then
        { m with strength := m.strength * rate ^ decayDays s1.lastConsolidationAt now m }
      else m) = s1.memories.map id := by
    apply List.map_congr_left
    intro m _
    rw [hlast, decayDays_now, pow_zero, mul_one]
    split
    · rfl
    · rfl
  rw [h1, List.map_id]

/-- C3: consolidation twice in succession is idempotent. The first
non-dry run multiplies every non-archived, non-permanent strength by
`decayRate ^ days` and stamps `last_consolidation_at := now`, while a dry
run leaves the store untouched; on the second run at the same instant
the decay exponent is `0`, so the multiplier is exactly `1` and the decay
step is the identity, the prune step archives nothing further, and the
boost step is skipped by the one-day cooldown. -/
theorem consolidation_idempotent_spec (embedF : String → List ℚ) (vecIndexOk : Bool)
    (vecTopK : List ℚ → Nat → List (Nat × ℚ)) (simFn : List ℚ → List ℚ → ℚ)
    (s : Store) (opts : ConsolidationOptions) (now : Int)
    (s1 s2 : Store) (r1 r2 : ConsolidationResult)
    (hdry : opts.dryRun = false)
    (hrate : 0 ≤ opts.decayRate)
    (hθ : opts.pruneThreshold ≤ 1)
    (hf : 1 ≤ opts.boostFactor)
    (hstr : ∀ m ∈ s.memories, 0 ≤ m.strength)
    (h1 : runConsolidation embedF vecIndexOk vecTopK simFn s opts now = (s1, r1))
    (h2 : runConsolidation embedF vecIndexOk vecTopK simFn s1 opts now = (s2, r2)) :
    List.Forall₂ (fun m m' => m.archived = false → isPermanent s m.id = false →
        m'.strength = m.strength * opts.decayRate ^ decayDays s.lastConsolidationAt now m)
      s.memories (stepDecay s opts.decayRate false s.lastConsolidationAt now).1.memories
    ∧ s1.lastConsolidationAt = some now
    ∧ (runConsolidation embedF vecIndexOk vecTopK simFn s
        { opts with dryRun := true } now).1 = s
    ∧ (stepDecay s1 opts.decayRate false s1.lastConsolidationAt now).1 = s1
    ∧ r2.pruned = 0
    ∧ r2.boosted = 0 := by
  classical
  have hs1 : (runConsolidation embedF vecIndexOk vecTopK simFn s opts now).1 = s1 :=
    congrArg Prod.fst h1
  have hstore1 := runConsolidation_store embedF vecIndexOk vecTopK simFn s opts now hdry
  have hlast : s1.lastConsolidationAt = some now := by
    rw [← hs1, hstore1]
  have hSDn := stepDecay_nonneg s opts.decayRate s.lastConsolidationAt now hrate hstr
  have hSP := stepPrune_strong opts.pruneThreshold
    (stepDecay s opts.decayRate false s.lastConsolidationAt now).1
  have hMG := mergeFold_strong embedF opts.pruneThreshold
    (stepPrune (stepDecay s opts.decayRate false s.lastConsolidationAt now).1
      opts.pruneThreshold false).1
    hSP.1 (hSP.2.2 hSDn.1)
    (if vecIndexOk then
        findMergeCandidatesDiskANN vecTopK
          (stepPrune (stepDecay s opts.decayRate false s.lastConsolidationAt now).1
            opts.pruneThreshold false).1 opts.mergeThreshold
      else
        findMergeCandidatesBruteForce simFn opts.mergeThreshold
          (stepPrune (stepDecay s opts.decayRate false s.lastConsolidationAt now).1
            opts.pruneThreshold false).1)
    (stepPrune (stepDecay s opts.decayRate false s.lastConsolidationAt now).1
      opts.pruneThreshold false).1
    (mergeCands_sound embedF vecIndexOk vecTopK simFn _ _)
    rfl hSP.1 (hSP.2.2 hSDn.1)
  have hBG := boostGate_strong opts.pruneThreshold s opts now
    (stepMerge embedF vecIndexOk vecTopK simFn
      (stepPrune (stepDecay s opts.decayRate false s.lastConsolidationAt now).1
        opts.pruneThreshold false).1 opts.mergeThreshold false).1
    hdry hθ hf hMG.2.1 hMG.2.2
  have hJ1 : strongEnough opts.pruneThreshold s1 :=
    strongEnough_congr opts.pruneThreshold _ s1
      (by rw [← hs1, hstore1]) (by rw [← hs1, hstore1]) hBG.1
  have hr2 : (runConsolidation embedF vecIndexOk vecTopK simFn s1 opts now).2 = r2 :=
    congrArg Prod.snd h2
  have hcounts := runConsolidation_counts embedF vecIndexOk vecTopK simFn s1 opts now
  have hpruned : r2.pruned = 0 := by
    rw [← hr2, hcounts]
    show (stepPrune (stepDecay s1 opts.decayRate opts.dryRun s1.lastConsolidationAt now).1
        opts.pruneThreshold opts.dryRun).2 = 0
    rw [hdry, stepDecay_after s1 opts.decayRate now hlast]
    show (s1.memories.filter (fun m => pruneHits s1 opts.pruneThreshold m)).length = 0
    rw [List.length_eq_zero, List.filter_eq_nil_iff]
    intro m hm hp
    rw [pruneHits] at hp
    rw [Bool.and_eq_true, Bool.and_eq_true] at hp
    obtain ⟨⟨ha, hlt⟩, hperm⟩ := hp
    have ha' : m.archived = false := by simpa using ha
    have hperm' : isPermanent s1 m.id = false := by simpa using hperm
    have hlt' : m.strength < opts.pruneThreshold := of_decide_eq_true hlt
    exact absurd hlt' (not_lt.2 (hJ1 m hm ha' hperm'))
  have hboosted : r2.boosted = 0 := by
    rw [← hr2, hcounts]
    show (boostGate s1 opts now
        (stepMerge embedF vecIndexOk vecTopK simFn
          (stepPrune (stepDecay s1 opts.decayRate opts.dryRun s1.lastConsolidationAt now).1
            opts.pruneThreshold opts.dryRun).1 opts.mergeThreshold opts.dryRun).1).2 = 0
    rw [boostGate_cooldown s1 opts now _ now hlast (by rw [sub_self]; norm_num)]
  refine ⟨?_, hlast,
    runConsolidation_dry embedF vecIndexOk vecTopK simFn s
      { opts with dryRun := true } now rfl,
    stepDecay_after s1 opts.decayRate now hlast, hpruned, hboosted⟩
  exact forall₂_map_self
    (fun m => if decayHits s m then
      { m with strength := m.strength * opts.decayRate ^ decayDays s.lastConsolidationAt now m }
    else m) _ s.memories
    (fun m hm => by
      show m.archived = false → isPermanent s m.id = false →
        (if decayHits s m then
          { m with
              strength := m.strength * opts.decayRate ^ decayDays s.lastConsolidationAt now m }
        else m).strength
          = m.strength * opts.decayRate ^ decayDays s.lastConsolidationAt now m
      intro ha hp
      by_cases hdh : decayHits s m = true
      · rw [if_pos hdh]
      · rw [if_neg hdh]
        have h0 : ¬ (0 < m.strength) := by
          intro hpos
          apply hdh
          rw [decayHits, ha, hp]
          simp [hpos]
        have h0' : m.strength = 0 := le_antisymm (not_lt.1 h0) (hstr m hm)
        rw [h0', zero_mul])

/-- Witness for C3 at the concrete one-memory store `storeOld` under the
default consolidation options, both runs at instant `0`. -/
theorem consolidation_idempotent_spec_witness :
    List.Forall₂ (fun m m' => m.archived = false → isPermanent storeOld m.id = false →
        m'.strength = m.strength * ({} : ConsolidationOptions).decayRate
          ^ decayDays storeOld.lastConsolidationAt 0 m)
      storeOld.memories
      (stepDecay storeOld ({} : ConsolidationOptions).decayRate false
        storeOld.lastConsolidationAt 0).1.memories
    ∧ (runConsolidation (fun _ => [(1 : ℚ)]) false (fun _ _ => []) (fun _ _ => 0)
        storeOld {} 0).1.lastConsolidationAt = some 0
    ∧ (runConsolidation (fun _ => [(1 : ℚ)]) false (fun _ _ => []) (fun _ _ => 0)
        storeOld { ({} : ConsolidationOptions) with dryRun := true } 0).1 = storeOld
    ∧ (stepDecay (runConsolidation (fun _ => [(1 : ℚ)]) false (fun _ _ => [])
          (fun _ _ => 0) storeOld {} 0).1 ({} : ConsolidationOptions).decayRate false
        (runConsolidation (fun _ => [(1 : ℚ)]) false (fun _ _ => []) (fun _ _ => 0)
          storeOld {} 0).1.lastConsolidationAt 0).1
      = (runConsolidation (fun _ => [(1 : ℚ)]) false (fun _ _ => []) (fun _ _ => 0)
          storeOld {} 0).1
    ∧ (runConsolidation (fun _ => [(1 : ℚ)]) false (fun _ _ => []) (fun _ _ => 0)
        (runConsolidation (fun _ => [(1 : ℚ)]) false (fun _ _ => []) (fun _ _ => 0)
          storeOld {} 0).1 {} 0).2.pruned = 0
    ∧ (runConsolidation (fun _ => [(1 : ℚ)]) false (fun _ _ => []) (fun _ _ => 0)
        (runConsolidation (fun _ => [(1 : ℚ)]) false (fun _ _ => []) (fun _ _ => 0)
          storeOld {} 0).1 {} 0).2.boosted = 0 :=
  consolidation_idempotent_spec (fun _ => [(1 : ℚ)]) false (fun _ _ => [])
    (fun _ _ => 0) storeOld {} 0 _ _ _ _ rfl
    (of_decide_eq_true (by with_unfolding_all rfl))
    (of_decide_eq_true (by with_unfolding_all rfl))
    (of_decide_eq_true (by with_unfolding_all rfl))
    (of_decide_eq_true (by with_unfolding_all rfl))
    rfl rfl

end Engram
